import Mathlib

/-!
# Verification of the Perchance VSCode extension's document-analysis core

This file gives a shallow embedding, in Lean 4, of the text-analysis core of
the `perchance-org-language-support-for-vscode` repository:

* `src/extension.js` — the interactive extension: `collectListDefinitions`,
  `collectListReferences` (reference/definition extraction);
* `scripts/validate-examples.js` — the batch validator: `findHtmlStart`,
  `looksLikeHtmlStart`, `stripComment`, `parseListName`, `isListHeaderLine`,
  `findIfElseSingleEquals`, `hasSingleEquals`, `analyzePerchance`;
* the second extension implementation embedded in
  `.github/copilot-instructions.md`: `analyzeDocument`, `countIndentLevel`,
  `isFunctionListStart`, `replaceSingleEqualsInIfElse`,
  `replaceFirstSingleEquals`.

Strings are modelled as `List Char` (`JSStr`), documents as `List JSStr`
(the adapters split file content on line breaks before the core runs).
JavaScript regular expressions are embedded as explicit character scanners;
each definition carries a comment pointing at the regex or loop it embeds.
Only ASCII whitespace is modelled for JavaScript's `\s` and `trim`.
-/

/-- A JavaScript string, modelled as its list of characters. -/
abbrev JSStr := List Char

/-- Coerce a Lean string literal to the `JSStr` model. -/
def str (s : String) : JSStr := s.data

/-! ## Character classes (embedding the regex character classes) -/

/-- ASCII whitespace, as matched by JavaScript `\s` / `trim` (space, tab,
newline, carriage return, vertical tab, form feed). -/
def isJsSpace (c : Char) : Bool :=
  decide (c.toNat = 32 ∨ c.toNat = 9 ∨ c.toNat = 10 ∨ c.toNat = 13 ∨
          c.toNat = 11 ∨ c.toNat = 12)

/-- The class `[\t ]` used by the indent matcher `/^[\t ]+/`. -/
def isTabSpace (c : Char) : Bool := decide (c.toNat = 9 ∨ c.toNat = 32)

/-- `[A-Z]`. -/
def isAsciiUpper (c : Char) : Bool := decide (65 ≤ c.toNat ∧ c.toNat ≤ 90)

/-- `[a-z]`. -/
def isAsciiLower (c : Char) : Bool := decide (97 ≤ c.toNat ∧ c.toNat ≤ 122)

/-- `[a-zA-Z]`. -/
def isAsciiLetter (c : Char) : Bool := isAsciiUpper c || isAsciiLower c

/-- `[0-9]`. -/
def isAsciiDigit (c : Char) : Bool := decide (48 ≤ c.toNat ∧ c.toNat ≤ 57)

/-- JavaScript `\w`, i.e. `[A-Za-z0-9_]`. -/
def isWordChar (c : Char) : Bool := isAsciiLetter c || isAsciiDigit c || c == '_'

/-- `[A-Za-z_]` — identifier lead character in `src/extension.js` regexes. -/
def isIdentStartE (c : Char) : Bool := isAsciiLetter c || c == '_'

/-- `[A-Za-z0-9_]` — identifier character in `src/extension.js` regexes
(`LIST_REF_REGEX`, `LIST_BLOCK_HEADER_REGEX`, ...; note: no hyphen). -/
def isIdentCharE (c : Char) : Bool := isIdentStartE c || isAsciiDigit c

/-- `[A-Za-z0-9_-]` — identifier character in `scripts/validate-examples.js`
regexes (hyphen allowed). -/
def isIdentCharV (c : Char) : Bool := isIdentCharE c || c == '-'

/-- `[A-Za-z0-9_$-]` — function-name character in `FUNCTION_HEADER_REGEX`. -/
def isFnNameChar (c : Char) : Bool := isIdentCharE c || c == '$' || c == '-'

/-- `[A-Za-z0-9_$]` — lead character of `parseListName`'s regex
`/^[A-Za-z0-9_$][\w$-]*/`. -/
def isPLNStart (c : Char) : Bool := isWordChar c || c == '$'

/-- `[\w$-]` — continuation character of `parseListName`'s regex. -/
def isPLNChar (c : Char) : Bool := isWordChar c || c == '$' || c == '-'

/-! ## String utilities (JavaScript `trim`, `trimStart`, `startsWith`) -/

/-- JavaScript `String.prototype.trimStart` (ASCII whitespace). -/
def jsTrimStart (s : JSStr) : JSStr := s.dropWhile isJsSpace

/-- JavaScript `String.prototype.trimEnd` (ASCII whitespace). -/
def jsTrimEnd (s : JSStr) : JSStr := (s.reverse.dropWhile isJsSpace).reverse

/-- JavaScript `String.prototype.trim` (ASCII whitespace). -/
def jsTrim (s : JSStr) : JSStr := jsTrimStart (jsTrimEnd s)

/-- JavaScript `String.prototype.startsWith`. -/
def startsW (p s : JSStr) : Bool := p.isPrefixOf s

/-- First index at which `p` holds (embeds `String.prototype.indexOf` for a
single character, returning `none` for JavaScript's `-1`). -/
def firstIdx (p : Char → Bool) : List Char → Option Nat
  | [] => none
  | c :: rest => if p c then some 0 else (firstIdx p rest).map (· + 1)

/-! ## `stripComment` (`validate-examples.js` line 92 and the copilot copy) -/

/-- `stripComment(text)`: the text up to the first `//`, or all of it. -/
def stripComment : JSStr → JSStr
  | [] => []
  | '/' :: '/' :: _ => []
  | c :: rest => c :: stripComment rest

/-! ## Boundary detector (`looksLikeHtmlStart`, `findHtmlStart`) -/

/-- The test `/<\/?[a-zA-Z]/.test(trimmed)`: some position holds `<`,
optionally `/`, then an ASCII letter. -/
def hasTagPattern : JSStr → Bool
  | [] => false
  | '<' :: rest =>
    (match rest with
     | '/' :: c :: _ => isAsciiLetter c
     | c :: _ => isAsciiLetter c
     | [] => false)
    || hasTagPattern rest
  | _ :: rest => hasTagPattern rest

/-- `looksLikeHtmlStart(line)` from `validate-examples.js` lines 64–73:
left-trim; must start with `<` but not `<<<<<`, and contain a tag pattern. -/
def looksLikeHtmlStart (line : JSStr) : Bool :=
  let trimmed := jsTrimStart line
  startsW (str "<") trimmed &&
  !(startsW (str "<<<<<") trimmed) &&
  hasTagPattern trimmed

/-- The loop body of `findHtmlStart` (lines 75–90): `sawBlank` is the
saw-blank-line flag; the result is an index relative to the remaining lines. -/
def findHtmlStartAux : Bool → List JSStr → Nat
  | _, [] => 0
  | sawBlank, line :: rest =>
    if jsTrim line = [] then 1 + findHtmlStartAux true rest
    else if sawBlank && looksLikeHtmlStart line then 0
    else 1 + findHtmlStartAux false rest

/-- `findHtmlStart(lines)`: index of the first markup line, or the number of
lines when there is none. -/
def findHtmlStart (lines : List JSStr) : Nat := findHtmlStartAux false lines

/-- The boundary condition of the specification: line `i` is a markup-region
start iff it is preceded by a blank line and looks like an HTML start. -/
def isBoundaryAt (lines : List JSStr) (i : Nat) : Prop :=
  1 ≤ i ∧
  (∃ prev, lines[i - 1]? = some prev ∧ jsTrim prev = []) ∧
  (∃ cur, lines[i]? = some cur ∧ looksLikeHtmlStart cur = true)

instance (lines : List JSStr) (i : Nat) : Decidable (isBoundaryAt lines i) := by
  unfold isBoundaryAt
  exact inferInstance

/-! ### Boundary detector: characterization lemmas -/

lemma jsTrimStart_eq_nil_of_jsTrim_eq_nil {l : JSStr} (h : jsTrim l = []) :
    jsTrimStart l = [] := by
  unfold jsTrim jsTrimStart jsTrimEnd at *
  rw [List.dropWhile_eq_nil_iff] at h ⊢
  intro x hx
  have hsplit : l.reverse.takeWhile isJsSpace ++ l.reverse.dropWhile isJsSpace = l.reverse :=
    List.takeWhile_append_dropWhile ..
  have hx' : x ∈ l.reverse := List.mem_reverse.mpr hx
  rw [← hsplit] at hx'
  rcases List.mem_append.mp hx' with h1 | h1
  · exact List.mem_takeWhile_imp h1
  · exact h x (List.mem_reverse.mpr h1)

lemma looksLikeHtmlStart_of_blank {l : JSStr} (h : jsTrim l = []) :
    looksLikeHtmlStart l = false := by
  unfold looksLikeHtmlStart
  rw [jsTrimStart_eq_nil_of_jsTrim_eq_nil h]
  rfl

/-- Relative boundary condition used to run the flag-state induction:
with incoming flag `saw`, position `i` in the remaining lines triggers. -/
def okAt (saw : Bool) (rest : List JSStr) (i : Nat) : Prop :=
  (i = 0 ∧ saw = true ∧ ∃ cur, rest[0]? = some cur ∧ looksLikeHtmlStart cur = true) ∨
  (1 ≤ i ∧ (∃ prev, rest[i - 1]? = some prev ∧ jsTrim prev = []) ∧
   (∃ cur, rest[i]? = some cur ∧ looksLikeHtmlStart cur = true))

lemma okAt_shift_up (l : JSStr) (rest : List JSStr) (saw saw' : Bool) (i : Nat)
    (hok : okAt saw' rest i) (hbl : i = 0 → jsTrim l = []) :
    okAt saw (l :: rest) (i + 1) := by
  rcases hok with ⟨h0, _, cur, hcur, hlook⟩ | ⟨h1, ⟨prev, hprev, hpb⟩, ⟨cur, hcur, hlook⟩⟩
  · subst h0
    right
    refine ⟨by omega, ⟨l, by simp, hbl rfl⟩, ⟨cur, ?_, hlook⟩⟩
    rw [List.getElem?_cons_succ]
    exact hcur
  · right
    refine ⟨by omega, ⟨prev, ?_, hpb⟩, ⟨cur, ?_, hlook⟩⟩
    · rw [show i + 1 - 1 = (i - 1) + 1 by omega, List.getElem?_cons_succ]
      exact hprev
    · rw [List.getElem?_cons_succ]
      exact hcur

lemma okAt_shift_down (l : JSStr) (rest : List JSStr) (saw saw' : Bool) (i : Nat)
    (hok : okAt saw (l :: rest) (i + 1)) (hbl : jsTrim l = [] → saw' = true) :
    okAt saw' rest i := by
  rcases hok with ⟨h0, _⟩ | ⟨_, ⟨prev, hprev, hpb⟩, ⟨cur, hcur, hlook⟩⟩
  · omega
  · rw [List.getElem?_cons_succ] at hcur
    rw [Nat.add_sub_cancel] at hprev
    cases i with
    | zero =>
      left
      simp only [List.getElem?_cons_zero, Option.some.injEq] at hprev
      refine ⟨rfl, hbl ?_, ⟨cur, hcur, hlook⟩⟩
      rw [hprev]
      exact hpb
    | succ i' =>
      right
      rw [List.getElem?_cons_succ] at hprev
      refine ⟨by omega, ⟨prev, ?_, hpb⟩, ⟨cur, hcur, hlook⟩⟩
      rw [Nat.add_sub_cancel]
      exact hprev

lemma findHtmlStartAux_spec (lines : List JSStr) : ∀ saw : Bool,
    findHtmlStartAux saw lines ≤ lines.length ∧
    (findHtmlStartAux saw lines < lines.length → okAt saw lines (findHtmlStartAux saw lines)) ∧
    (∀ i < findHtmlStartAux saw lines, ¬ okAt saw lines i) := by
  induction lines with
  | nil =>
    intro saw
    refine ⟨Nat.le_refl _, ?_, ?_⟩
    · intro hlt
      simp [findHtmlStartAux] at hlt
    · intro i hi
      simp [findHtmlStartAux] at hi
  | cons l rest ih =>
    intro saw
    by_cases hb : jsTrim l = []
    · -- blank line: flag set, recurse
      have hunf : findHtmlStartAux saw (l :: rest) = 1 + findHtmlStartAux true rest := by
        simp [findHtmlStartAux, hb]
      obtain ⟨ih1, ih2, ih3⟩ := ih true
      refine ⟨?_, ?_, ?_⟩
      · simp only [hunf, List.length_cons]; omega
      · intro hlt
        rw [hunf] at hlt ⊢
        simp only [List.length_cons] at hlt
        have hok := ih2 (by omega)
        rw [show 1 + findHtmlStartAux true rest = findHtmlStartAux true rest + 1 by omega]
        exact okAt_shift_up l rest saw true _ hok (fun _ => hb)
      · intro i hi hok
        rw [hunf] at hi
        match i with
        | 0 =>
          rcases hok with ⟨_, _, cur, hcur, hlook⟩ | ⟨h1, _⟩
          · simp only [List.getElem?_cons_zero, Option.some.injEq] at hcur
            rw [← hcur, looksLikeHtmlStart_of_blank hb] at hlook
            exact Bool.false_ne_true hlook
          · omega
        | i' + 1 =>
          exact ih3 i' (by omega) (okAt_shift_down l rest saw true i' hok (fun _ => rfl))
    · by_cases hl : saw && looksLikeHtmlStart l
      · -- boundary found at this line
        have hunf : findHtmlStartAux saw (l :: rest) = 0 := by
          simp [findHtmlStartAux, hb, hl]
        refine ⟨by simp [hunf], ?_, ?_⟩
        · intro _
          rw [hunf]
          left
          rw [Bool.and_eq_true] at hl
          exact ⟨rfl, hl.1, ⟨l, by simp, hl.2⟩⟩
        · intro i hi
          omega
      · -- ordinary line: flag cleared
        have hunf : findHtmlStartAux saw (l :: rest) = 1 + findHtmlStartAux false rest := by
          simp [findHtmlStartAux, hb, hl]
        obtain ⟨ih1, ih2, ih3⟩ := ih false
        refine ⟨?_, ?_, ?_⟩
        · simp only [hunf, List.length_cons]; omega
        · intro hlt
          rw [hunf] at hlt ⊢
          simp only [List.length_cons] at hlt
          have hok := ih2 (by omega)
          rcases hok with ⟨_, hsaw, _⟩ | hok'
          · exact absurd hsaw (by simp)
          · rw [show 1 + findHtmlStartAux false rest = findHtmlStartAux false rest + 1 by omega]
            exact okAt_shift_up l rest saw false _ (Or.inr hok') (fun h0 => by
              rw [h0] at hok'
              obtain ⟨h1, _⟩ := hok'
              omega)
        · intro i hi hok
          rw [hunf] at hi
          match i with
          | 0 =>
            rcases hok with ⟨_, hsaw, cur, hcur, hlook⟩ | ⟨h1, _⟩
            · simp only [List.getElem?_cons_zero, Option.some.injEq] at hcur
              rw [Bool.not_eq_true] at hl
              rcases Bool.and_eq_false_iff.mp hl with h | h
              · rw [h] at hsaw; exact Bool.false_ne_true hsaw
              · rw [← hcur, h] at hlook; exact Bool.false_ne_true hlook
            · omega
          | i' + 1 =>
            refine ih3 i' (by omega) (okAt_shift_down l rest saw false i' hok ?_)
            intro hbl
            exact absurd hbl hb

/-! ## `countIndentLevel` (copilot-instructions copy, lines 1113–1128) -/

/-- The loop of `countIndentLevel`, carrying the accumulated `level` and the
running `spaces` counter. -/
def countIndentLevelAux : Nat → Nat → JSStr → Nat
  | level, _, [] => level
  | level, spaces, c :: rest =>
    if c = '\t' then countIndentLevelAux (level + 1) spaces rest
    else if c = ' ' then
      if spaces + 1 = 2 then countIndentLevelAux (level + 1) 0 rest
      else countIndentLevelAux level (spaces + 1) rest
    else countIndentLevelAux level spaces rest

/-- `countIndentLevel(indent)`: one unit per tab, one unit per two spaces. -/
def countIndentLevel (indent : JSStr) : Nat := countIndentLevelAux 0 0 indent

lemma countIndentLevelAux_spec (s : JSStr) : ∀ level spaces, spaces ≤ 1 →
    countIndentLevelAux level spaces s =
      level + s.count '\t' + (spaces + s.count ' ') / 2 := by
  induction s with
  | nil => intro level spaces h; simp [countIndentLevelAux]; omega
  | cons c rest ih =>
    intro level spaces h
    by_cases ht : c = '\t'
    · subst ht
      rw [show countIndentLevelAux level spaces ('\t' :: rest) =
            countIndentLevelAux (level + 1) spaces rest from by simp [countIndentLevelAux]]
      rw [ih (level + 1) spaces h]
      have h1 : ('\t' :: rest).count '\t' = rest.count '\t' + 1 := by
        simp [List.count_cons]
      have h2 : ('\t' :: rest).count ' ' = rest.count ' ' := by
        simp [List.count_cons]
      omega
    · by_cases hs : c = ' '
      · subst hs
        have h1 : (' ' :: rest).count '\t' = rest.count '\t' := by
          simp [List.count_cons]
        have h2 : (' ' :: rest).count ' ' = rest.count ' ' + 1 := by
          simp [List.count_cons]
        by_cases h2c : spaces + 1 = 2
        · rw [show countIndentLevelAux level spaces (' ' :: rest) =
              countIndentLevelAux (level + 1) 0 rest from by
                simp [countIndentLevelAux, h2c]]
          rw [ih (level + 1) 0 (by omega)]
          omega
        · rw [show countIndentLevelAux level spaces (' ' :: rest) =
              countIndentLevelAux level (spaces + 1) rest from by
                simp [countIndentLevelAux, h2c]]
          rw [ih level (spaces + 1) (by omega)]
          omega
      · rw [show countIndentLevelAux level spaces (c :: rest) =
            countIndentLevelAux level spaces rest from by simp [countIndentLevelAux, ht, hs]]
        rw [ih level spaces h]
        have h1 : (c :: rest).count '\t' = rest.count '\t' := by
          simp [List.count_cons, ht]
        have h2 : (c :: rest).count ' ' = rest.count ' ' := by
          simp [List.count_cons, hs]
        omega

/-! ## Claim theorems (first batch) -/

/-- **C3.** `findHtmlStart` returns the index of the first line that is
preceded (in the saw-blank-flag sense, which for the returned index means: the
immediately preceding line is blank) by a blank line and that, after left-trim,
starts with `<` but not `<<<<<` and contains `<` or `</` followed by a letter
(`looksLikeHtmlStart`); if no line qualifies it returns the number of lines.
Stated as: the result is at most the length, any result short of the length
satisfies the boundary condition, and no earlier index satisfies it. -/
theorem findHtmlStart_is_first_boundary (lines : List JSStr) :
    findHtmlStart lines ≤ lines.length ∧
    (findHtmlStart lines < lines.length → isBoundaryAt lines (findHtmlStart lines)) ∧
    (∀ i < findHtmlStart lines, ¬ isBoundaryAt lines i) := by
  obtain ⟨h1, h2, h3⟩ := findHtmlStartAux_spec lines false
  refine ⟨h1, ?_, ?_⟩
  · intro hlt
    have hok := h2 hlt
    rcases hok with ⟨_, hsaw, _⟩ | ⟨ha, hb, hc⟩
    · exact absurd hsaw (by simp)
    · exact ⟨ha, hb, hc⟩
  · intro i hi hok
    apply h3 i hi
    right
    exact hok

/-- Witness for C3 at a concrete document: list lines, a blank line, then
`<div>`; the boundary is the index of the `<div>` line (2), which satisfies
the condition, and indices 0, 1 do not. -/
theorem findHtmlStart_is_first_boundary_witness :
    findHtmlStart [str "animal", str "", str "<div>"] ≤ 3 ∧
    (findHtmlStart [str "animal", str "", str "<div>"] < 3 →
      isBoundaryAt [str "animal", str "", str "<div>"]
        (findHtmlStart [str "animal", str "", str "<div>"])) ∧
    (∀ i < findHtmlStart [str "animal", str "", str "<div>"],
      ¬ isBoundaryAt [str "animal", str "", str "<div>"] i) :=
  findHtmlStart_is_first_boundary [str "animal", str "", str "<div>"]

/-- **C5.** `countIndentLevel` on a run of tabs and spaces counts one unit per
tab plus one unit per two spaces, dropping a leftover odd space; in particular
two tabs give 2, four spaces give 2, three spaces give 1. -/
theorem countIndentLevel_tabs_and_halved_spaces (s : JSStr)
    (h : ∀ c ∈ s, c = '\t' ∨ c = ' ') :
    countIndentLevel s = s.count '\t' + s.count ' ' / 2 ∧
    countIndentLevel (str "\t\t") = 2 ∧
    countIndentLevel (str "    ") = 2 ∧
    countIndentLevel (str "   ") = 1 := by
  refine ⟨?_, by decide, by decide, by decide⟩
  rw [countIndentLevel, countIndentLevelAux_spec s 0 0 (by omega)]
  omega

/-- Witness for C5 at the concrete indent `"\t  "` (one tab, two spaces). -/
theorem countIndentLevel_tabs_and_halved_spaces_witness :
    countIndentLevel (str "\t  ") =
      (str "\t  ").count '\t' + (str "\t  ").count ' ' / 2 ∧
    countIndentLevel (str "\t\t") = 2 ∧
    countIndentLevel (str "    ") = 2 ∧
    countIndentLevel (str "   ") = 1 :=
  countIndentLevel_tabs_and_halved_spaces (str "\t  ") (by decide)

/-! ## Single-equals detection (`findIfElseSingleEquals`, `hasSingleEquals`,
`validate-examples.js` lines 128–169; identical copy in `copilot-instructions`) -/

/-- A character `=` disqualified by its predecessor: `==`, `!=`, `>=`, `<=`.
JavaScript's `text[i - 1] || ""` yields `none` here at the string start. -/
def badPrevB (o : Option Char) : Bool :=
  o == some '=' || o == some '!' || o == some '>' || o == some '<'

/-- A character `=` disqualified by its successor: `==`, `=>`. -/
def badNextB (o : Option Char) : Bool :=
  o == some '=' || o == some '>'

/-- The scan loop of `hasSingleEquals`, carrying the previous character. -/
def hasSingleEqualsAux : Option Char → JSStr → Bool
  | _, [] => false
  | prev, c :: rest =>
    if c = '=' then
      if badPrevB prev || badNextB rest.head? then hasSingleEqualsAux (some c) rest
      else true
    else hasSingleEqualsAux (some c) rest

/-- `hasSingleEquals(text)`: some `=` is not part of `==`, `!=`, `>=`, `<=`,
`=>`. -/
def hasSingleEquals (text : JSStr) : Bool := hasSingleEqualsAux none text

/-- The bracket scan of the regex `/\[([^\]]+)\]/g` in `findIfElseSingleEquals`,
with explicit fuel so that the recursion is structural (the fuel only ever
needs the text's length): at a `[`, a match runs to the first `]` after it and
its content (the characters between) must be nonempty; on a match the scan
resumes after the `]`, otherwise at the next character.  `pos` is the absolute
position of the head of the remaining text. -/
def scanBracketsF : Nat → JSStr → Nat → List (Nat × Nat × JSStr)
  | 0, _, _ => []
  | _ + 1, [], _ => []
  | fuel + 1, c :: rest, pos =>
    if c = '[' then
      match firstIdx (fun x => x = ']') rest with
      | some k =>
        if k = 0 then scanBracketsF fuel rest (pos + 1)
        else (pos, pos + k + 2, rest.take k) :: scanBracketsF fuel (rest.drop (k + 1)) (pos + k + 2)
      | none => []
    else scanBracketsF fuel rest (pos + 1)

/-- All non-overlapping `(start, end, content)` matches of `/\[([^\]]+)\]/g`. -/
def scanBrackets (t : JSStr) (pos : Nat) : List (Nat × Nat × JSStr) :=
  scanBracketsF t.length t pos

/-- The per-match body of the `while` loop in `findIfElseSingleEquals`:
`content.indexOf("?")` and `content.indexOf(":")` must both succeed, and the
condition before the first `?` must have a single equals; then the warning
carries the match's start and end. -/
def ifElseWarnOf (m : Nat × Nat × JSStr) : Option (Nat × Nat) :=
  match firstIdx (fun x => x = '?') m.2.2, firstIdx (fun x => x = ':') m.2.2 with
  | some q, some _ =>
    if hasSingleEquals (m.2.2.take q) then some (m.1, m.2.1) else none
  | _, _ => none

/-- `findIfElseSingleEquals(text)`: for each bracketed span whose content has
both a `?` and a `:` and whose part before the first `?` has a single equals,
one warning with the span's start and end columns. -/
def findIfElseSingleEquals (text : JSStr) : List (Nat × Nat) :=
  (scanBrackets text 0).filterMap ifElseWarnOf

/-! ### Specification-side predicate for a qualifying `=` (the claim's
predecessor/successor rule) and its equivalence with `hasSingleEquals` -/

/-- Position `i` of `t` holds an `=` that is not preceded by `=`, `!`, `>`,
`<` and not followed by `=` or `>`. -/
def qualifiesAt (t : JSStr) (i : Nat) : Prop :=
  t[i]? = some '=' ∧
  (i = 0 ∨ badPrevB t[i - 1]? = false) ∧
  badNextB t[i + 1]? = false

instance (t : JSStr) (i : Nat) : Decidable (qualifiesAt t i) := by
  unfold qualifiesAt
  exact inferInstance

lemma getElem?_cons_one (c : Char) (rest : JSStr) : (c :: rest)[1]? = rest.head? := by
  cases rest <;> simp

/-- The previous character seen by the single-equals scan at position `i`:
the incoming `prev` at position 0, else the character at `i - 1`. -/
def prevOpt (prev : Option Char) (t : JSStr) (i : Nat) : Option Char :=
  if i = 0 then prev else t[i - 1]?

lemma prevOpt_shift (c : Char) (prev : Option Char) (rest : JSStr) (i : Nat) :
    prevOpt prev (c :: rest) (i + 1) = prevOpt (some c) rest i := by
  unfold prevOpt
  rcases Nat.eq_zero_or_pos i with h0 | hpos
  · subst h0
    simp
  · rw [if_neg (by omega), if_neg (by omega)]
    rw [show i + 1 - 1 = (i - 1) + 1 by omega, List.getElem?_cons_succ]

lemma exists_qual_cons (c : Char) (prev : Option Char) (rest : JSStr) :
    (∃ j, (c :: rest)[j]? = some '=' ∧ badPrevB (prevOpt prev (c :: rest) j) = false ∧
      badNextB (c :: rest)[j + 1]? = false)
    ↔ ((c = '=' ∧ badPrevB prev = false ∧ badNextB rest.head? = false) ∨
       (∃ i, rest[i]? = some '=' ∧ badPrevB (prevOpt (some c) rest i) = false ∧
         badNextB rest[i + 1]? = false)) := by
  constructor
  · rintro ⟨j, h1, h2, h3⟩
    rcases j with _ | i
    · left
      simp only [List.getElem?_cons_zero, Option.some.injEq] at h1
      rw [show (0 : Nat) + 1 = 1 from rfl, getElem?_cons_one] at h3
      simp only [prevOpt, if_pos rfl] at h2
      exact ⟨h1, h2, h3⟩
    · right
      refine ⟨i, by simpa using h1, ?_, by simpa using h3⟩
      rwa [prevOpt_shift] at h2
  · rintro (⟨hc, h2, h3⟩ | ⟨i, h1, h2, h3⟩)
    · refine ⟨0, by simp [hc], by simpa [prevOpt], ?_⟩
      rw [show (0 : Nat) + 1 = 1 from rfl, getElem?_cons_one]
      exact h3
    · refine ⟨i + 1, by simpa using h1, ?_, by simpa using h3⟩
      rwa [prevOpt_shift]

lemma hasSingleEqualsAux_iff (t : JSStr) : ∀ prev : Option Char,
    hasSingleEqualsAux prev t = true ↔
      ∃ i, t[i]? = some '=' ∧ badPrevB (prevOpt prev t i) = false ∧
        badNextB t[i + 1]? = false := by
  induction t with
  | nil =>
    intro prev
    simp [hasSingleEqualsAux]
  | cons c rest ih =>
    intro prev
    rw [exists_qual_cons]
    by_cases hc : c = '='
    · by_cases hskip : (badPrevB prev || badNextB rest.head?) = true
      · have hunf : hasSingleEqualsAux prev (c :: rest) = hasSingleEqualsAux (some c) rest := by
          subst hc
          simp [hasSingleEqualsAux, hskip]
        rw [hunf, ih (some c)]
        constructor
        · intro h
          exact Or.inr h
        · rintro (⟨_, h2, h3⟩ | h)
          · exfalso
            rw [Bool.or_eq_true] at hskip
            rcases hskip with hb | hb
            · rw [hb] at h2; simp at h2
            · rw [hb] at h3; simp at h3
          · exact h
      · have hunf : hasSingleEqualsAux prev (c :: rest) = true := by
          subst hc
          simp [hasSingleEqualsAux, hskip]
        rw [hunf]
        simp only [true_iff]
        rw [Bool.not_eq_true, Bool.or_eq_false_iff] at hskip
        exact Or.inl ⟨hc, hskip.1, hskip.2⟩
    · have hunf : hasSingleEqualsAux prev (c :: rest) = hasSingleEqualsAux (some c) rest := by
        simp [hasSingleEqualsAux, hc]
      rw [hunf, ih (some c)]
      constructor
      · intro h
        exact Or.inr h
      · rintro (⟨hc', _⟩ | h)
        · exact absurd hc' hc
        · exact h

/-- `hasSingleEquals` holds exactly when some position qualifies under the
claim's predecessor/successor rule. -/
lemma hasSingleEquals_iff_qualifies (t : JSStr) :
    hasSingleEquals t = true ↔ ∃ i, qualifiesAt t i := by
  rw [hasSingleEquals, hasSingleEqualsAux_iff]
  apply exists_congr
  intro i
  unfold qualifiesAt prevOpt
  rcases Nat.eq_zero_or_pos i with h0 | hpos
  · subst h0
    simp [badPrevB]
  · rw [if_neg (by omega)]
    constructor
    · rintro ⟨h1, h2, h3⟩
      exact ⟨h1, Or.inr h2, h3⟩
    · rintro ⟨h1, h2, h3⟩
      refine ⟨h1, ?_, h3⟩
      rcases h2 with h0 | h
      · omega
      · exact h

lemma firstIdx_eq_none_iff (p : Char → Bool) (l : List Char) :
    firstIdx p l = none ↔ ∀ x ∈ l, p x = false := by
  induction l with
  | nil => simp [firstIdx]
  | cons c rest ih =>
    by_cases hc : p c
    · simp [firstIdx, hc]
    · simp only [firstIdx, if_neg hc]
      rw [Option.map_eq_none'] at *
      constructor
      · intro h x hx
        rcases List.mem_cons.mp hx with h0 | h0
        · subst h0
          exact Bool.not_eq_true _ ▸ hc
        · exact (ih.mp h) x h0
      · intro h
        exact ih.mpr (fun x hx => h x (List.mem_cons_of_mem c hx))

lemma firstIdx_eq_some_sat (p : Char → Bool) (l : List Char) (k : Nat)
    (h : firstIdx p l = some k) : ∃ x, l[k]? = some x ∧ p x = true := by
  induction l generalizing k with
  | nil => simp [firstIdx] at h
  | cons c rest ih =>
    by_cases hc : p c
    · simp only [firstIdx, if_pos hc, Option.some.injEq] at h
      subst h
      exact ⟨c, by simp, hc⟩
    · simp only [firstIdx, if_neg hc] at h
      rcases Option.map_eq_some'.mp h with ⟨k', hk', hkk⟩
      subst hkk
      obtain ⟨x, hx1, hx2⟩ := ih k' hk'
      exact ⟨x, by simpa using hx1, hx2⟩

lemma firstIdx_isSome_of_mem {p : Char → Bool} {l : List Char} {x : Char}
    (hx : x ∈ l) (hp : p x = true) : ∃ k, firstIdx p l = some k := by
  cases h : firstIdx p l with
  | none =>
    rw [firstIdx_eq_none_iff] at h
    rw [h x hx] at hp
    simp at hp
  | some k => exact ⟨k, rfl⟩

lemma scanBracketsF_spec : ∀ (fuel : Nat) (t : JSStr) (pos : Nat), t.length ≤ fuel →
    (∀ m ∈ scanBracketsF fuel t pos, pos ≤ m.1 ∧ m.1 < m.2.1) ∧
    List.Pairwise (fun a b => a.2.1 ≤ b.1) (scanBracketsF fuel t pos) := by
  intro fuel
  induction fuel with
  | zero =>
    intro t pos _
    constructor
    · intro m hm
      simp [scanBracketsF] at hm
    · simp [scanBracketsF]
  | succ fuel ih =>
    intro t pos hlen
    match t with
    | [] =>
      constructor
      · intro m hm
        simp [scanBracketsF] at hm
      · simp [scanBracketsF]
    | c :: rest =>
      simp only [List.length_cons] at hlen
      by_cases hc : c = '['
      · cases hk : firstIdx (fun x => x = ']') rest with
        | none =>
          rw [show scanBracketsF (fuel + 1) (c :: rest) pos = [] from by
            simp [scanBracketsF, hc, hk]]
          simp
        | some k =>
          by_cases hk0 : k = 0
          · rw [show scanBracketsF (fuel + 1) (c :: rest) pos = scanBracketsF fuel rest (pos + 1)
              from by simp [scanBracketsF, hc, hk, hk0]]
            obtain ⟨hb, hp⟩ := ih rest (pos + 1) (by omega)
            exact ⟨fun m hm => ⟨by have := (hb m hm).1; omega, (hb m hm).2⟩, hp⟩
          · rw [show scanBracketsF (fuel + 1) (c :: rest) pos =
                (pos, pos + k + 2, rest.take k) ::
                  scanBracketsF fuel (rest.drop (k + 1)) (pos + k + 2)
              from by simp [scanBracketsF, hc, hk, hk0]]
            obtain ⟨hb, hp⟩ := ih (rest.drop (k + 1)) (pos + k + 2)
              (by simp only [List.length_drop]; omega)
            constructor
            · intro m hm
              rcases List.mem_cons.mp hm with h0 | h0
              · subst h0
                exact ⟨Nat.le_refl _, show pos < pos + k + 2 by omega⟩
              · have h1 := (hb m h0).1
                exact ⟨by omega, (hb m h0).2⟩
            · rw [List.pairwise_cons]
              refine ⟨?_, hp⟩
              intro b hb'
              show pos + k + 2 ≤ b.1
              exact (hb b hb').1
      · rw [show scanBracketsF (fuel + 1) (c :: rest) pos = scanBracketsF fuel rest (pos + 1)
          from by simp [scanBracketsF, hc]]
        obtain ⟨hb, hp⟩ := ih rest (pos + 1) (by omega)
        exact ⟨fun m hm => ⟨by have := (hb m hm).1; omega, (hb m hm).2⟩, hp⟩

lemma scanBrackets_spec (t : JSStr) (pos : Nat) :
    (∀ m ∈ scanBrackets t pos, pos ≤ m.1 ∧ m.1 < m.2.1) ∧
    List.Pairwise (fun a b => a.2.1 ≤ b.1) (scanBrackets t pos) :=
  scanBracketsF_spec t.length t pos (Nat.le_refl _)


lemma ifElseWarnOf_eq_some {m : Nat × Nat × JSStr} {x : Nat × Nat} :
    ifElseWarnOf m = some x ↔
      x = (m.1, m.2.1) ∧ ∃ q cl, firstIdx (fun y => y = '?') m.2.2 = some q ∧
        firstIdx (fun y => y = ':') m.2.2 = some cl ∧
        hasSingleEquals (m.2.2.take q) = true := by
  unfold ifElseWarnOf
  constructor
  · intro h
    split at h
    · next q cl hq hcl =>
      split at h
      · next hse =>
        rw [Option.some.injEq] at h
        exact ⟨h.symm, q, cl, hq, hcl, hse⟩
      · simp at h
    · simp at h
  · rintro ⟨hx, q, cl, hq, hcl, hse⟩
    rw [hq, hcl]
    subst hx
    simp [hse]

/-- **C4.** The single-equals rule emits at most one finding per bracketed
span (the spans of successive findings do not overlap, and every span is
nonempty, so no span is reported twice), and a span is flagged exactly when
its content has both a `?` and a `:` and the part before the first `?` has an
`=` whose predecessor is not `=`, `!`, `>`, `<` and whose successor is not `=`
or `>` (`qualifiesAt`); in particular `[x = 1 ? "a" : "b"]` is flagged at the
full span `(0, 19)` and the `==`, `!=` and `=>` variants are not flagged. -/
theorem findIfElseSingleEquals_characterization (text : JSStr) :
    List.Pairwise (fun a b => a.2 ≤ b.1) (findIfElseSingleEquals text) ∧
    (∀ p ∈ findIfElseSingleEquals text, p.1 < p.2) ∧
    (∀ s e, (s, e) ∈ findIfElseSingleEquals text ↔
      ∃ c q, (s, e, c) ∈ scanBrackets text 0 ∧
        firstIdx (fun x => x = '?') c = some q ∧ (∃ cl ∈ c, cl = ':') ∧
        ∃ i, qualifiesAt (c.take q) i) ∧
    findIfElseSingleEquals (str "[x = 1 ? \"a\" : \"b\"]") = [(0, 19)] ∧
    findIfElseSingleEquals (str "[x == 1 ? \"a\" : \"b\"]") = [] ∧
    findIfElseSingleEquals (str "[x != 1 ? \"a\" : \"b\"]") = [] ∧
    findIfElseSingleEquals (str "[fn() => x ? \"a\" : \"b\"]") = [] := by
  obtain ⟨hbounds, hpw⟩ := scanBrackets_spec text 0
  have hmem : ∀ s e, (s, e) ∈ findIfElseSingleEquals text ↔
      ∃ c q, (s, e, c) ∈ scanBrackets text 0 ∧
        firstIdx (fun x => x = '?') c = some q ∧ (∃ cl ∈ c, cl = ':') ∧
        ∃ i, qualifiesAt (c.take q) i := by
    intro s e
    rw [findIfElseSingleEquals, List.mem_filterMap]
    constructor
    · rintro ⟨⟨s', e', c⟩, hin, hf⟩
      obtain ⟨hx, q, cl, hq, hcl, hse⟩ := ifElseWarnOf_eq_some.mp hf
      have hs : s = s' := congrArg Prod.fst hx
      have he : e = e' := congrArg Prod.snd hx
      subst hs; subst he
      obtain ⟨x, hx1, hx2⟩ := firstIdx_eq_some_sat _ _ _ hcl
      exact ⟨c, q, hin, hq, ⟨x, List.getElem?_mem hx1, by simpa using hx2⟩,
        (hasSingleEquals_iff_qualifies _).mp hse⟩
    · rintro ⟨c, q, hin, hq, ⟨cl, hclmem, hcleq⟩, hqual⟩
      refine ⟨(s, e, c), hin, ?_⟩
      obtain ⟨k, hk⟩ :=
        firstIdx_isSome_of_mem (p := fun y => y = ':') hclmem (by simp [hcleq])
      exact ifElseWarnOf_eq_some.mpr
        ⟨rfl, q, k, hq, hk, (hasSingleEquals_iff_qualifies _).mpr hqual⟩
  refine ⟨?_, ?_, hmem, by decide, by decide, by decide, by decide⟩
  · -- non-overlap of finding spans, pulled back from the bracket spans
    rw [findIfElseSingleEquals]
    refine List.Pairwise.filterMap ifElseWarnOf ?_ hpw
    intro a b hab x hax y hby
    rw [Option.mem_def] at hax hby
    obtain ⟨hx, _⟩ := ifElseWarnOf_eq_some.mp hax
    obtain ⟨hy, _⟩ := ifElseWarnOf_eq_some.mp hby
    subst hx; subst hy
    exact hab
  · -- every finding's start is below its end
    intro p hp
    obtain ⟨c, q, hin, _, _, _⟩ := (hmem p.1 p.2).mp (by simpa using hp)
    exact (hbounds _ hin).2

/-- Witness for C4 at the concrete line `[x = 1 ? "a" : "b"]`: instantiation
of the characterization. -/
theorem findIfElseSingleEquals_characterization_witness :
    ((0, 19) ∈ findIfElseSingleEquals (str "[x = 1 ? \"a\" : \"b\"]") ↔
      ∃ c q, (0, 19, c) ∈ scanBrackets (str "[x = 1 ? \"a\" : \"b\"]") 0 ∧
        firstIdx (fun x => x = '?') c = some q ∧ (∃ cl ∈ c, cl = ':') ∧
        ∃ i, qualifiesAt (c.take q) i) ∧
    findIfElseSingleEquals (str "[x = 1 ? \"a\" : \"b\"]") = [(0, 19)] :=
  ⟨(findIfElseSingleEquals_characterization (str "[x = 1 ? \"a\" : \"b\"]")).2.2.1 0 19,
   (findIfElseSingleEquals_characterization (str "[x = 1 ? \"a\" : \"b\"]")).2.2.2.1⟩

/-! ## Reference extraction (`collectListReferences`, `src/extension.js`
lines 63–83, scanning `LIST_REF_REGEX = /\[\[([A-Za-z_][A-Za-z0-9_]*)\]\]/g`) -/

/-- A `Reference` record as pushed by `collectListReferences`:
`{ name, line, start, end }`. -/
structure Ref where
  name : JSStr
  line : Nat
  start : Nat
  endPos : Nat
deriving DecidableEq

/-- One attempt of `LIST_REF_REGEX` at the head of the remaining text:
`[[`, a lead `[A-Za-z_]`, the maximal run of `[A-Za-z0-9_]`, then `]]`.
Returns the captured name and the whole match's length. -/
def tryRefAt : JSStr → Option (JSStr × Nat)
  | '[' :: '[' :: c :: rest2 =>
    if isIdentStartE c then
      let run := rest2.takeWhile isIdentCharE
      match rest2.drop run.length with
      | ']' :: ']' :: _ => some (c :: run, (c :: run).length + 4)
      | _ => none
    else none
  | _ => none

/-- The `exec` loop of `LIST_REF_REGEX` over one line, with explicit fuel
(the line's length always suffices): on a match, resume after it; otherwise
advance one character. -/
def scanRefsF : Nat → JSStr → Nat → List (JSStr × Nat × Nat)
  | 0, _, _ => []
  | _ + 1, [], _ => []
  | fuel + 1, c :: rest, pos =>
    match tryRefAt (c :: rest) with
    | some (name, len) =>
      (name, pos, pos + len) :: scanRefsF fuel ((c :: rest).drop len) (pos + len)
    | none => scanRefsF fuel rest (pos + 1)

/-- All matches of `LIST_REF_REGEX` in a line, as `(name, start, end)`. -/
def scanRefs (t : JSStr) (pos : Nat) : List (JSStr × Nat × Nat) :=
  scanRefsF t.length t pos

/-- The per-line loop of `collectListReferences`. -/
def collectRefsGo : List JSStr → Nat → List Ref
  | [], _ => []
  | line :: rest, ln =>
    (scanRefs line 0).map (fun m => ⟨m.1, ln, m.2.1, m.2.2⟩) ++ collectRefsGo rest (ln + 1)

/-- `collectListReferences(document)`: every `[[name]]` occurrence in every
line of the document. -/
def collectListReferences (doc : List JSStr) : List Ref := collectRefsGo doc 0

/-- A well-formed reference identifier for `LIST_REF_REGEX`:
`[A-Za-z_][A-Za-z0-9_]*`. -/
def wellFormedRefName : JSStr → Bool
  | [] => false
  | c :: m => isIdentStartE c && m.all isIdentCharE

/-- `[[n]]` occurs in `t` at position `s`: the claim's round-trip property,
`t.drop s` starts with exactly `[[` ++ `n` ++ `]]` for a well-formed name. -/
def refOccursAt (t : JSStr) (s : Nat) (n : JSStr) : Prop :=
  wellFormedRefName n = true ∧
  (t.drop s).take (n.length + 4) = str "[[" ++ n ++ str "]]"

instance (t : JSStr) (s : Nat) (n : JSStr) : Decidable (refOccursAt t s n) := by
  unfold refOccursAt
  exact inferInstance

/-- The identifier character set asserted by the claim (letters, digits,
underscore, and hyphen). -/
def claimIdentChar (c : Char) : Bool :=
  isAsciiLetter c || isAsciiDigit c || c == '_' || c == '-'

/-! ### Reference extraction: characterization lemmas -/

lemma str_brackets_open : str "[[" = ['[', '['] := rfl

lemma str_brackets_close : str "]]" = [']', ']'] := rfl

lemma refPattern_length (n : JSStr) :
    (str "[[" ++ n ++ str "]]").length = n.length + 4 := by
  simp [str_brackets_open, str_brackets_close]

lemma refOccursAt_zero_iff (t : JSStr) (n : JSStr) :
    refOccursAt t 0 n ↔
      wellFormedRefName n = true ∧
      ∃ rest', t = str "[[" ++ n ++ str "]]" ++ rest' := by
  unfold refOccursAt
  rw [List.drop_zero]
  constructor
  · rintro ⟨hwf, hsl⟩
    refine ⟨hwf, t.drop (n.length + 4), ?_⟩
    conv_lhs => rw [← List.take_append_drop (n.length + 4) t]
    rw [hsl]
  · rintro ⟨hwf, rest', hre⟩
    refine ⟨hwf, ?_⟩
    subst hre
    rw [show n.length + 4 = (str "[[" ++ n ++ str "]]").length from (refPattern_length n).symm]
    exact List.take_left ..

lemma takeWhile_all_append {p : Char → Bool} {m : List Char} {y : Char} {ys : List Char}
    (hm : ∀ x ∈ m, p x = true) (hy : p y = false) :
    (m ++ y :: ys).takeWhile p = m := by
  induction m with
  | nil => simp [List.takeWhile_cons, hy]
  | cons a m' ih =>
    rw [List.cons_append, List.takeWhile_cons, hm a (List.mem_cons_self a m'),
      ih (fun x hx => hm x (List.mem_cons_of_mem a hx))]
    simp

lemma wf_all_identCharE {n : JSStr} (h : wellFormedRefName n = true) :
    ∀ x ∈ n, isIdentCharE x = true := by
  match n with
  | [] => simp [wellFormedRefName] at h
  | c :: m =>
    rw [wellFormedRefName, Bool.and_eq_true, List.all_eq_true] at h
    intro x hx
    rcases List.mem_cons.mp hx with h0 | h0
    · subst h0
      rw [isIdentCharE, h.1]
      rfl
    · exact h.2 x h0

lemma tryRefAt_eq_some_iff (t : JSStr) (n : JSStr) (len : Nat) :
    tryRefAt t = some (n, len) ↔ refOccursAt t 0 n ∧ len = n.length + 4 := by
  constructor
  · intro h
    unfold tryRefAt at h
    split at h
    · next c rest2 =>
      by_cases hst : isIdentStartE c
      · rw [if_pos hst] at h
        simp only at h
        set run := rest2.takeWhile isIdentCharE with hrun
        have hsplit : run ++ rest2.dropWhile isIdentCharE = rest2 :=
          List.takeWhile_append_dropWhile ..
        have hdrop : rest2.drop run.length = rest2.dropWhile isIdentCharE := by
          conv_lhs => rw [← hsplit]
          exact List.drop_left ..
        rw [hdrop] at h
        split at h
        · next tail heq =>
          rw [Option.some.injEq, Prod.mk.injEq] at h
          obtain ⟨hn, hlen⟩ := h
          have ht2 : rest2 = run ++ ']' :: ']' :: tail := by rw [← hsplit, heq]
          subst hn
          refine ⟨⟨?_, ?_⟩, by omega⟩
          · rw [wellFormedRefName, Bool.and_eq_true, List.all_eq_true]
            exact ⟨hst, fun x hx => List.mem_takeWhile_imp hx⟩
          · rw [List.drop_zero, ht2]
            rw [show (c :: run).length + 4 = (['[', '[', c] : JSStr).length + (run.length + 2)
              from by simp only [List.length_cons, List.length_nil]; omega]
            rw [show ('[' :: '[' :: c :: (run ++ ']' :: ']' :: tail) : JSStr) =
              ['[', '[', c] ++ (run ++ ']' :: ']' :: tail) from rfl]
            rw [List.take_append, List.take_append]
            simp [str_brackets_open, str_brackets_close]
        · simp at h
      · rw [if_neg hst] at h
        simp at h
    · simp at h
  · rintro ⟨hocc, hlen⟩
    obtain ⟨hwf, rest', hre⟩ := (refOccursAt_zero_iff t n).mp hocc
    match n, hwf with
    | c :: m, hwf =>
      rw [wellFormedRefName, Bool.and_eq_true, List.all_eq_true] at hwf
      have ht : t = '[' :: '[' :: c :: (m ++ ']' :: ']' :: rest') := by
        rw [hre]
        simp [str_brackets_open, str_brackets_close]
      rw [ht, tryRefAt, if_pos hwf.1]
      simp only
      have htw : (m ++ ']' :: ']' :: rest').takeWhile isIdentCharE = m :=
        takeWhile_all_append hwf.2 (by decide)
      rw [htw]
      have hdl : (m ++ ']' :: ']' :: rest').drop m.length = ']' :: ']' :: rest' :=
        List.drop_left ..
      rw [hdl, hlen]
      rfl

lemma refOccursAt_head_bracket {t : JSStr} {s : Nat} {n : JSStr}
    (h : refOccursAt t s n) : t[s]? = some '[' ∧ t[s + 1]? = some '[' := by
  obtain ⟨hwf, hsl⟩ := h
  have h0 : (t.drop s)[0]? = some '[' := by
    have := congrArg (fun l => l[0]?) hsl
    simp only [List.getElem?_take] at this
    rw [if_pos (by omega)] at this
    rw [this]
    simp [str_brackets_open]
  have h1 : (t.drop s)[1]? = some '[' := by
    have := congrArg (fun l => l[1]?) hsl
    simp only [List.getElem?_take] at this
    rw [if_pos (by omega)] at this
    rw [this]
    match n with
    | [] => simp [wellFormedRefName] at hwf
    | c :: m => simp [str_brackets_open]
  rw [List.getElem?_drop] at h0 h1
  constructor
  · simpa using h0
  · simpa using h1

/-- No `[[name]]` occurrence starts strictly inside a match of the regex. -/
lemma no_ref_inside {t : JSStr} {n : JSStr} {len : Nat}
    (h : tryRefAt t = some (n, len)) :
    ∀ j, 1 ≤ j → j < len → ∀ n', ¬ refOccursAt t j n' := by
  obtain ⟨hocc, hlen⟩ := (tryRefAt_eq_some_iff t n len).mp h
  obtain ⟨hwf, rest', hre⟩ := (refOccursAt_zero_iff t n).mp hocc
  have hu : t = '[' :: '[' :: ((n ++ [']', ']']) ++ rest') := by
    rw [hre]
    simp [str_brackets_open, str_brackets_close]
  -- inside the match (from index 2 up to the closing brackets) every
  -- character is an identifier character or `]`, never `[`
  have hchar : ∀ i x, t[i]? = some x → 2 ≤ i → i < n.length + 4 → x ≠ '[' := by
    intro i x hx hge hlt
    rw [hu, show i = (i - 2) + 1 + 1 by omega, List.getElem?_cons_succ,
      List.getElem?_cons_succ] at hx
    rw [List.getElem?_append] at hx
    rw [if_pos (by
      simp only [List.length_append, List.length_cons, List.length_nil]
      omega)] at hx
    rw [List.getElem?_append] at hx
    by_cases hin : i - 2 < n.length
    · rw [if_pos hin] at hx
      have hxmem : x ∈ n := by
        rw [List.getElem?_eq_some] at hx
        obtain ⟨hlt', hx'⟩ := hx
        rw [← hx']
        exact List.getElem_mem ..
      have hxid := wf_all_identCharE hwf x hxmem
      intro hxeq
      rw [hxeq] at hxid
      exact absurd hxid (by decide)
    · rw [if_neg hin] at hx
      have hid2 : i - 2 - n.length = 0 ∨ i - 2 - n.length = 1 := by omega
      have hxrb : x = ']' := by
        rcases hid2 with hd | hd <;> rw [hd] at hx <;> simp at hx <;> exact hx.symm
      intro hxeq
      rw [hxeq] at hxrb
      exact absurd hxrb (by decide)
  intro j hj1 hjlen n' hocc'
  obtain ⟨hb0, hb1⟩ := refOccursAt_head_bracket hocc'
  rcases Nat.lt_or_ge j 2 with hj2 | hj2
  · have hj : j = 1 := by omega
    subst hj
    exact hchar 2 '[' (by simpa using hb1) (by omega) (by omega) rfl
  · exact hchar j '[' hb0 hj2 (by omega) rfl

lemma refOccursAt_cons_shift (c : Char) (rest : JSStr) (j : Nat) (n : JSStr) :
    refOccursAt (c :: rest) (j + 1) n ↔ refOccursAt rest j n := by
  unfold refOccursAt
  rw [List.drop_succ_cons]

lemma refOccursAt_drop_shift (t : JSStr) (len j : Nat) (n : JSStr) :
    refOccursAt (t.drop len) j n ↔ refOccursAt t (len + j) n := by
  unfold refOccursAt
  rw [List.drop_drop]

lemma refOccursAt_nil (j : Nat) (n : JSStr) : ¬ refOccursAt ([] : JSStr) j n := by
  rintro ⟨_, hsl⟩
  rw [List.drop_nil, List.take_nil] at hsl
  rw [str_brackets_open] at hsl
  simp at hsl

lemma scanRefsF_mem : ∀ (fuel : Nat) (t : JSStr) (pos : Nat), t.length ≤ fuel →
    ∀ n s e, ((n, s, e) ∈ scanRefsF fuel t pos ↔
      ∃ j, s = pos + j ∧ refOccursAt t j n ∧ e = s + (n.length + 4)) := by
  intro fuel
  induction fuel with
  | zero =>
    intro t pos hlen n s e
    have ht : t = [] := List.length_eq_zero.mp (by omega)
    subst ht
    simp only [scanRefsF, List.not_mem_nil, false_iff]
    rintro ⟨j, _, hocc, _⟩
    exact refOccursAt_nil j n hocc
  | succ fuel ih =>
    intro t pos hlen n s e
    match t with
    | [] =>
      simp only [scanRefsF, List.not_mem_nil, false_iff]
      rintro ⟨j, _, hocc, _⟩
      exact refOccursAt_nil j n hocc
    | c :: rest =>
      simp only [List.length_cons] at hlen
      cases htry : tryRefAt (c :: rest) with
      | some m =>
        obtain ⟨name, len⟩ := m
        obtain ⟨hocc0, hlen0⟩ := (tryRefAt_eq_some_iff _ _ _).mp htry
        have hunf : scanRefsF (fuel + 1) (c :: rest) pos =
            (name, pos, pos + len) ::
              scanRefsF fuel ((c :: rest).drop len) (pos + len) := by
          rw [scanRefsF, htry]
        have hdlen : ((c :: rest).drop len).length ≤ fuel := by
          rw [List.length_drop]
          simp only [List.length_cons]
          omega
        rw [hunf, List.mem_cons, ih _ _ hdlen]
        constructor
        · rintro (hhead | ⟨j', hs, hocc, he⟩)
          · rw [Prod.mk.injEq, Prod.mk.injEq] at hhead
            obtain ⟨h1, h2, h3⟩ := hhead
            subst h1
            exact ⟨0, by omega, hocc0, by omega⟩
          · rw [refOccursAt_drop_shift] at hocc
            exact ⟨len + j', by omega, hocc, he⟩
        · rintro ⟨j, hs, hocc, he⟩
          rcases Nat.eq_zero_or_pos j with hj0 | hjpos
          · subst hj0
            left
            have := (tryRefAt_eq_some_iff (c :: rest) n (n.length + 4)).mpr ⟨hocc, rfl⟩
            rw [htry, Option.some.injEq, Prod.mk.injEq] at this
            obtain ⟨hn, hl⟩ := this
            rw [Prod.mk.injEq, Prod.mk.injEq]
            exact ⟨hn.symm, by omega, by omega⟩
          · rcases Nat.lt_or_ge j len with hjlt | hjge
            · exact absurd hocc (no_ref_inside htry j hjpos hjlt n)
            · right
              refine ⟨j - len, by omega, ?_, he⟩
              rw [refOccursAt_drop_shift]
              rw [show len + (j - len) = j by omega]
              exact hocc
      | none =>
        have hunf : scanRefsF (fuel + 1) (c :: rest) pos =
            scanRefsF fuel rest (pos + 1) := by
          rw [scanRefsF, htry]
        rw [hunf, ih _ _ (by omega)]
        constructor
        · rintro ⟨j', hs, hocc, he⟩
          rw [← refOccursAt_cons_shift c] at hocc
          exact ⟨j' + 1, by omega, hocc, he⟩
        · rintro ⟨j, hs, hocc, he⟩
          rcases Nat.eq_zero_or_pos j with hj0 | hjpos
          · subst hj0
            have := (tryRefAt_eq_some_iff (c :: rest) n (n.length + 4)).mpr ⟨hocc, rfl⟩
            rw [htry] at this
            exact absurd this (by simp)
          · refine ⟨j - 1, by omega, ?_, he⟩
            rw [← refOccursAt_cons_shift c, show j - 1 + 1 = j by omega]
            exact hocc

lemma scanRefsF_bounds : ∀ (fuel : Nat) (t : JSStr) (pos : Nat),
    (∀ m ∈ scanRefsF fuel t pos, pos ≤ m.2.1 ∧ m.2.1 < m.2.2) ∧
    List.Pairwise (fun a b => a.2.2 ≤ b.2.1) (scanRefsF fuel t pos) := by
  intro fuel
  induction fuel with
  | zero =>
    intro t pos
    constructor
    · intro m hm
      simp [scanRefsF] at hm
    · simp [scanRefsF]
  | succ fuel ih =>
    intro t pos
    match t with
    | [] =>
      constructor
      · intro m hm
        simp [scanRefsF] at hm
      · simp [scanRefsF]
    | c :: rest =>
      cases htry : tryRefAt (c :: rest) with
      | some m0 =>
        obtain ⟨name, len⟩ := m0
        have hlenpos : 1 ≤ len := by
          obtain ⟨_, hl⟩ := (tryRefAt_eq_some_iff _ _ _).mp htry
          omega
        have hunf : scanRefsF (fuel + 1) (c :: rest) pos =
            (name, pos, pos + len) ::
              scanRefsF fuel ((c :: rest).drop len) (pos + len) := by
          rw [scanRefsF, htry]
        obtain ⟨hb, hp⟩ := ih ((c :: rest).drop len) (pos + len)
        rw [hunf]
        constructor
        · intro m hm
          rcases List.mem_cons.mp hm with h0 | h0
          · subst h0
            exact ⟨Nat.le_refl _, show pos < pos + len by omega⟩
          · have h1 := (hb m h0).1
            exact ⟨by omega, (hb m h0).2⟩
        · rw [List.pairwise_cons]
          refine ⟨?_, hp⟩
          intro b hb'
          show pos + len ≤ b.2.1
          exact (hb b hb').1
      | none =>
        have hunf : scanRefsF (fuel + 1) (c :: rest) pos =
            scanRefsF fuel rest (pos + 1) := by
          rw [scanRefsF, htry]
        obtain ⟨hb, hp⟩ := ih rest (pos + 1)
        rw [hunf]
        refine ⟨?_, hp⟩
        intro m hm
        have h1 := (hb m hm).1
        exact ⟨by omega, (hb m hm).2⟩

lemma collectRefsGo_mem : ∀ (doc : List JSStr) (b : Nat) (r : Ref),
    r ∈ collectRefsGo doc b ↔
      ∃ i line, doc[i]? = some line ∧ r.line = b + i ∧
        (r.name, r.start, r.endPos) ∈ scanRefs line 0 := by
  intro doc
  induction doc with
  | nil =>
    intro b r
    simp [collectRefsGo]
  | cons line rest ih =>
    intro b r
    rw [collectRefsGo, List.mem_append, List.mem_map, ih]
    constructor
    · rintro (⟨m, hm, hr⟩ | ⟨i', line', h1, h2, h3⟩)
      · refine ⟨0, line, by simp, ?_, ?_⟩
        · rw [← hr]
          simp
        · rw [← hr]
          exact hm
      · exact ⟨i' + 1, line', by simpa using h1, by omega, h3⟩
    · rintro ⟨i, line', h1, h2, h3⟩
      rcases i with _ | i'
      · left
        simp only [List.getElem?_cons_zero, Option.some.injEq] at h1
        subst h1
        refine ⟨(r.name, r.start, r.endPos), h3, ?_⟩
        have hb : r.line = b := by omega
        rw [← hb]
      · right
        exact ⟨i', line', by simpa using h1, by omega, h3⟩

lemma collectRefsGo_pairwise : ∀ (doc : List JSStr) (b : Nat),
    List.Pairwise (fun a b => a.line < b.line ∨ (a.line = b.line ∧ a.endPos ≤ b.start))
      (collectRefsGo doc b) := by
  intro doc
  induction doc with
  | nil => intro b; simp [collectRefsGo]
  | cons line rest ih =>
    intro b
    rw [collectRefsGo, List.pairwise_append]
    refine ⟨?_, ih (b + 1), ?_⟩
    · apply List.Pairwise.map
        (R := fun a c : JSStr × Nat × Nat => a.2.2 ≤ c.2.1)
      · intro a c hac
        right
        exact ⟨rfl, hac⟩
      · exact (scanRefsF_bounds line.length line 0).2
    · intro a ha c hc
      left
      obtain ⟨m, -, hr⟩ := List.mem_map.mp ha
      obtain ⟨i, line', -, hl, -⟩ := (collectRefsGo_mem rest (b + 1) c).mp hc
      rw [← hr, hl]
      simp only
      omega

/-- **C1 (amended).** `collectListReferences` returns exactly one `Reference`
record per occurrence of `[[name]]` — where the name matches
`[A-Za-z_][A-Za-z0-9_]*` (letters, digits and underscore; *no hyphen*, unlike
the claim's wording) — scanning every line of the full document; each record's
`(start, endPos)` slice of its line is exactly `[[` ++ name ++ `]]`, records
are listed in document order with non-overlapping spans, and repeated
references each produce their own record (no deduplication), as in the
two-record output for `[[a]] [[a]]`. -/
theorem collectListReferences_round_trip (doc : List JSStr) :
    (∀ r : Ref, r ∈ collectListReferences doc ↔
      ∃ line, doc[r.line]? = some line ∧ refOccursAt line r.start r.name ∧
        r.endPos = r.start + (r.name.length + 4)) ∧
    List.Pairwise (fun a b => a.line < b.line ∨ (a.line = b.line ∧ a.endPos ≤ b.start))
      (collectListReferences doc) ∧
    collectListReferences [str "[[a]] [[a]]"] =
      [⟨str "a", 0, 0, 5⟩, ⟨str "a", 0, 6, 11⟩] := by
  refine ⟨?_, collectRefsGo_pairwise doc 0, by decide⟩
  intro r
  rw [collectListReferences, collectRefsGo_mem]
  constructor
  · rintro ⟨i, line, h1, h2, h3⟩
    rw [scanRefs, scanRefsF_mem line.length line 0 (Nat.le_refl _)] at h3
    obtain ⟨j, hj, hocc, he⟩ := h3
    have hj' : j = r.start := by omega
    subst hj'
    refine ⟨line, ?_, hocc, he⟩
    rw [show r.line = i by omega]
    exact h1
  · rintro ⟨line, h1, hocc, he⟩
    refine ⟨r.line, line, h1, by omega, ?_⟩
    rw [scanRefs, scanRefsF_mem line.length line 0 (Nat.le_refl _)]
    exact ⟨r.start, by omega, hocc, he⟩

/-- Witness for C1 at the document `["[[a]] [[a]]"]` and the first record. -/
theorem collectListReferences_round_trip_witness :
    ((⟨str "a", 0, 0, 5⟩ : Ref) ∈ collectListReferences [str "[[a]] [[a]]"] ↔
      ∃ line, [str "[[a]] [[a]]"][(0 : Nat)]? = some line ∧
        refOccursAt line 0 (str "a") ∧ (5 : Nat) = 0 + ((str "a").length + 4)) ∧
    collectListReferences [str "[[a]] [[a]]"] =
      [⟨str "a", 0, 0, 5⟩, ⟨str "a", 0, 6, 11⟩] :=
  ⟨(collectListReferences_round_trip [str "[[a]] [[a]]"]).1 ⟨str "a", 0, 0, 5⟩,
   (collectListReferences_round_trip [str "[[a]] [[a]]"]).2.2⟩

/-- **C1 counterexample.** The claim's identifier charset includes the hyphen,
but `LIST_REF_REGEX` in `src/extension.js` has no hyphen: the line `[[a-b]]`
contains `[[` ++ `a-b` ++ `]]` with every character of `a-b` in the claim's
charset, yet `collectListReferences` returns no record at all for it. -/
theorem collectListReferences_no_hyphen_counterexample :
    (∀ x ∈ str "a-b", claimIdentChar x = true) ∧
    str "[[a-b]]" = str "[[" ++ str "a-b" ++ str "]]" ∧
    collectListReferences [str "[[a-b]]"] = [] := by
  refine ⟨by decide, by decide, by decide⟩

/-! ## Definition extraction (`collectListDefinitions`, `src/extension.js`
lines 27–61) -/

/-- A whole-string identifier `[A-Za-z_][A-Za-z0-9_]*` (the common body of
`LIST_BLOCK_HEADER_REGEX`'s two alternatives). -/
def isIdentE : JSStr → Bool
  | [] => false
  | c :: m => isIdentStartE c && m.all isIdentCharE

/-- `LIST_BLOCK_HEADER_REGEX = /^([A-Za-z_][A-Za-z0-9_]*|\$[A-Za-z_][A-Za-z0-9_]*)$/`
against the whole trimmed line; the capture is the whole line. -/
def matchBlockHeaderE (t : JSStr) : Option JSStr :=
  match t with
  | '$' :: rest => if isIdentE rest then some t else none
  | _ => if isIdentE t then some t else none

/-- `LIST_SHORTHAND_REGEX = /^([A-Za-z_][A-Za-z0-9_]*)\s*=/`: an identifier,
optional whitespace, then `=`; the capture is the identifier. -/
def matchShorthandE (t : JSStr) : Option JSStr :=
  match t with
  | c :: rest =>
    if isIdentStartE c then
      match (rest.dropWhile isIdentCharE).dropWhile isJsSpace with
      | '=' :: _ => some (c :: rest.takeWhile isIdentCharE)
      | _ => none
    else none
  | [] => none

/-- JavaScript `Map.prototype.set`: update the entry in place if the key is
present, else append. -/
def setDef : List (JSStr × Nat) → JSStr → Nat → List (JSStr × Nat)
  | [], k, v => [(k, v)]
  | (k', v') :: rest, k, v =>
    if k' = k then (k', v) :: rest else (k', v') :: setDef rest k v

/-- JavaScript `Map.prototype.get` (`none` for a missing key). -/
def getDef : List (JSStr × Nat) → JSStr → Option Nat
  | [], _ => none
  | (k, v) :: rest, n => if k = n then some v else getDef rest n

/-- The name (if any) that one loop iteration of `collectListDefinitions`
stores into the map: skip blank lines and lines whose trimmed text starts
with `//` or `<`; then a block header match (its `$`-prefixed alternative is
dropped) or a shorthand match.  A `DOLLAR_SHORTHAND_REGEX` match and a line
matching nothing both just `continue`, so they yield nothing. -/
def defYieldLine (line : JSStr) : Option JSStr :=
  let trimmed := jsTrim line
  if trimmed = [] ∨ startsW (str "//") trimmed = true ∨ startsW (str "<") trimmed = true then
    none
  else
    match matchBlockHeaderE trimmed with
    | some name => if startsW (str "$") name = true then none else some name
    | none => matchShorthandE trimmed

/-- The loop of `collectListDefinitions` over all lines of the document
(`document.lineCount` many — no boundary is consulted), threading the map. -/
def collectDefsGo : List JSStr → Nat → List (JSStr × Nat) → List (JSStr × Nat)
  | [], _, defs => defs
  | line :: rest, i, defs =>
    match defYieldLine line with
    | some name => collectDefsGo rest (i + 1) (setDef defs name i)
    | none => collectDefsGo rest (i + 1) defs

/-- `collectListDefinitions(document)`. -/
def collectListDefinitions (doc : List JSStr) : List (JSStr × Nat) :=
  collectDefsGo doc 0 []

/-- The stored name of line `i` of the document, if any. -/
def defYieldAt (doc : List JSStr) (i : Nat) : Option JSStr :=
  match doc[i]? with
  | some line => defYieldLine line
  | none => none

/-- The last index of `L` whose line yields the name `n`. -/
def lastYieldIdx : List JSStr → JSStr → Option Nat
  | [], _ => none
  | line :: rest, n =>
    match lastYieldIdx rest n with
    | some k => some (k + 1)
    | none => if defYieldLine line = some n then some 0 else none

/-! ### Definition extraction: characterization lemmas -/

lemma getDef_setDef_same (m : List (JSStr × Nat)) (k : JSStr) (v : Nat) :
    getDef (setDef m k v) k = some v := by
  induction m with
  | nil => simp [setDef, getDef]
  | cons e rest ih =>
    obtain ⟨k', v'⟩ := e
    by_cases hk : k' = k
    · simp [setDef, hk, getDef]
    · simp only [setDef, if_neg hk, getDef]
      exact ih

lemma getDef_setDef_other (m : List (JSStr × Nat)) (k k' : JSStr) (v : Nat)
    (h : k ≠ k') : getDef (setDef m k v) k' = getDef m k' := by
  induction m with
  | nil => simp [setDef, getDef, h]
  | cons e rest ih =>
    obtain ⟨k'', v''⟩ := e
    by_cases hk : k'' = k
    · subst hk
      simp only [setDef, if_pos rfl, getDef]
      rw [if_neg h, if_neg h]
    · simp only [setDef, if_neg hk, getDef]
      by_cases hk' : k'' = k'
      · rw [if_pos hk', if_pos hk']
      · rw [if_neg hk', if_neg hk']
        exact ih

lemma collectDefsGo_getDef : ∀ (L : List JSStr) (b : Nat) (defs : List (JSStr × Nat))
    (n : JSStr),
    getDef (collectDefsGo L b defs) n =
      match lastYieldIdx L n with
      | some k => some (b + k)
      | none => getDef defs n := by
  intro L
  induction L with
  | nil => intro b defs n; simp [collectDefsGo, lastYieldIdx]
  | cons line rest ih =>
    intro b defs n
    cases hy : defYieldLine line with
    | some m =>
      rw [show collectDefsGo (line :: rest) b defs = collectDefsGo rest (b + 1) (setDef defs m b)
        from by rw [collectDefsGo, hy]]
      rw [ih]
      cases hl : lastYieldIdx rest n with
      | some k =>
        rw [show lastYieldIdx (line :: rest) n = some (k + 1) from by
          rw [lastYieldIdx, hl]]
        simp only
        congr 1
        omega
      | none =>
        rw [show lastYieldIdx (line :: rest) n =
            (if defYieldLine line = some n then some 0 else none) from by
          rw [lastYieldIdx, hl]]
        by_cases hnm : m = n
        · subst hnm
          rw [if_pos hy]
          simp only [getDef_setDef_same]
          congr 1
        · rw [if_neg (by rw [hy]; intro hc; rw [Option.some.injEq] at hc; exact hnm hc)]
          simp only
          exact getDef_setDef_other defs m n b hnm
    | none =>
      rw [show collectDefsGo (line :: rest) b defs = collectDefsGo rest (b + 1) defs
        from by rw [collectDefsGo, hy]]
      rw [ih]
      cases hl : lastYieldIdx rest n with
      | some k =>
        rw [show lastYieldIdx (line :: rest) n = some (k + 1) from by
          rw [lastYieldIdx, hl]]
        simp only
        congr 1
        omega
      | none =>
        rw [show lastYieldIdx (line :: rest) n =
            (if defYieldLine line = some n then some 0 else none) from by
          rw [lastYieldIdx, hl]]
        rw [if_neg (by rw [hy]; simp)]

lemma lastYieldIdx_none_forall : ∀ (L : List JSStr) (n : JSStr),
    lastYieldIdx L n = none →
    ∀ (j : Nat) (line' : JSStr), L[j]? = some line' → defYieldLine line' ≠ some n := by
  intro L
  induction L with
  | nil =>
    intro n _ j line' hline'
    simp at hline'
  | cons r rs ihr =>
    intro n hl j line' hline'
    rw [lastYieldIdx] at hl
    cases hl2 : lastYieldIdx rs n with
    | some k2 => rw [hl2] at hl; simp at hl
    | none =>
      rw [hl2] at hl
      match j with
      | 0 =>
        simp only [List.getElem?_cons_zero, Option.some.injEq] at hline'
        subst hline'
        intro hy
        rw [if_pos hy] at hl
        exact absurd hl (by simp)
      | j' + 1 =>
        rw [List.getElem?_cons_succ] at hline'
        exact ihr n hl2 j' line' hline'

lemma lastYieldIdx_eq_some_iff : ∀ (L : List JSStr) (n : JSStr) (k : Nat),
    lastYieldIdx L n = some k ↔
      (∃ line, L[k]? = some line ∧ defYieldLine line = some n) ∧
      (∀ j, k < j → ∀ line', L[j]? = some line' → defYieldLine line' ≠ some n) := by
  intro L
  induction L with
  | nil =>
    intro n k
    simp [lastYieldIdx]
  | cons line rest ih =>
    intro n k
    cases hl : lastYieldIdx rest n with
    | some k' =>
      rw [show lastYieldIdx (line :: rest) n = some (k' + 1) from by rw [lastYieldIdx, hl]]
      rw [ih] at hl
      constructor
      · intro hk
        rw [Option.some.injEq] at hk
        subst hk
        obtain ⟨⟨line', h1, h2⟩, h3⟩ := hl
        refine ⟨⟨line', by simpa using h1, h2⟩, ?_⟩
        intro j hj line'' hline''
        match j, hj with
        | j' + 1, hj =>
          rw [List.getElem?_cons_succ] at hline''
          exact h3 j' (by omega) line'' hline''
      · rintro ⟨⟨line', h1, h2⟩, h3⟩
        rw [Option.some.injEq]
        obtain ⟨⟨lr, hr1, hr2⟩, hr3⟩ := hl
        match k with
        | 0 =>
          exfalso
          exact h3 (k' + 1) (by omega) lr (by simpa using hr1) hr2
        | kk + 1 =>
          rw [List.getElem?_cons_succ] at h1
          rcases Nat.lt_trichotomy kk k' with hc | hc | hc
          · exact absurd hr2 (h3 (k' + 1) (by omega) lr (by simpa using hr1))
          · omega
          · exact absurd h2 (hr3 kk hc line' h1)
    | none =>
      rw [show lastYieldIdx (line :: rest) n =
          (if defYieldLine line = some n then some 0 else none) from by
        rw [lastYieldIdx, hl]]
      have hnone := lastYieldIdx_none_forall rest n hl
      by_cases hy : defYieldLine line = some n
      · rw [if_pos hy]
        constructor
        · intro hk
          rw [Option.some.injEq] at hk
          subst hk
          refine ⟨⟨line, by simp, hy⟩, ?_⟩
          intro j hj line' hline'
          match j, hj with
          | j' + 1, _ =>
            rw [List.getElem?_cons_succ] at hline'
            exact hnone j' line' hline'
        · rintro ⟨⟨line', h1, h2⟩, h3⟩
          rw [Option.some.injEq]
          match k with
          | 0 => rfl
          | kk + 1 =>
            rw [List.getElem?_cons_succ] at h1
            exact absurd h2 (hnone kk line' h1)
      · rw [if_neg hy]
        constructor
        · intro hk
          exact absurd hk (by simp)
        · rintro ⟨⟨line', h1, h2⟩, h3⟩
          match k with
          | 0 =>
            simp only [List.getElem?_cons_zero, Option.some.injEq] at h1
            subst h1
            exact absurd h2 hy
          | kk + 1 =>
            rw [List.getElem?_cons_succ] at h1
            exact absurd h2 (hnone kk line' h1)

lemma str_dollar : str "$" = ['$'] := rfl

lemma defYieldAt_eq_some_iff (doc : List JSStr) (i : Nat) (n : JSStr) :
    defYieldAt doc i = some n ↔
      ∃ line, doc[i]? = some line ∧ defYieldLine line = some n := by
  unfold defYieldAt
  cases h : doc[i]? <;> simp

lemma matchShorthandE_not_dollar (t n : JSStr) (h : matchShorthandE t = some n) :
    startsW (str "$") n = false := by
  match t with
  | [] => rw [matchShorthandE] at h; exact absurd h (by simp)
  | c :: rest =>
    rw [matchShorthandE] at h
    by_cases hst : isIdentStartE c
    · rw [if_pos hst] at h
      split at h
      · rw [Option.some.injEq] at h
        subst h
        have hc : ('$' == c) = false := by
          rw [beq_eq_false_iff_ne]
          intro hc
          rw [← hc] at hst
          exact absurd hst (by decide)
        rw [startsW, str_dollar]
        simp [List.isPrefixOf, hc]
      · exact absurd h (by simp)
    · rw [if_neg hst] at h
      exact absurd h (by simp)

lemma defYieldLine_not_dollar (line n : JSStr) (h : defYieldLine line = some n) :
    startsW (str "$") n = false := by
  rw [defYieldLine] at h
  split at h
  · exact absurd h (by simp)
  · split at h
    · next name heq =>
      by_cases hd : startsW (str "$") name = true
      · rw [if_pos hd] at h
        exact absurd h (by simp)
      · rw [if_neg hd] at h
        rw [Option.some.injEq] at h
        subst h
        exact Bool.not_eq_true _ ▸ hd
    · exact matchShorthandE_not_dollar _ _ h

/-- **C2 (amended).** In `collectListDefinitions` (`src/extension.js`), a name
maps to line `i` exactly when line `i` stores that name (its trimmed text is a
non-`$` block header or a shorthand assignment, regardless of indentation and
regardless of the markup boundary, which this function never consults) and no
later line stores the same name: the map keeps the *last* occurrence, and
every stored name is non-`$`-prefixed. -/
theorem collectListDefinitions_last_occurrence (doc : List JSStr) (n : JSStr) (i : Nat) :
    (getDef (collectListDefinitions doc) n = some i ↔
      defYieldAt doc i = some n ∧ ∀ j, i < j → defYieldAt doc j ≠ some n) ∧
    (getDef (collectListDefinitions doc) n = some i → startsW (str "$") n = false) := by
  have key : getDef (collectListDefinitions doc) n = lastYieldIdx doc n := by
    rw [collectListDefinitions, collectDefsGo_getDef]
    cases lastYieldIdx doc n <;> simp [getDef]
  have hiff : getDef (collectListDefinitions doc) n = some i ↔
      defYieldAt doc i = some n ∧ ∀ j, i < j → defYieldAt doc j ≠ some n := by
    rw [key, lastYieldIdx_eq_some_iff]
    constructor
    · rintro ⟨⟨line, h1, h2⟩, h3⟩
      refine ⟨(defYieldAt_eq_some_iff doc i n).mpr ⟨line, h1, h2⟩, ?_⟩
      intro j hj hy
      obtain ⟨line', h1', h2'⟩ := (defYieldAt_eq_some_iff doc j n).mp hy
      exact h3 j hj line' h1' h2'
    · rintro ⟨h1, h3⟩
      obtain ⟨line, hl1, hl2⟩ := (defYieldAt_eq_some_iff doc i n).mp h1
      refine ⟨⟨line, hl1, hl2⟩, ?_⟩
      intro j hj line' hline' hy
      exact h3 j hj ((defYieldAt_eq_some_iff doc j n).mpr ⟨line', hline', hy⟩)
  refine ⟨hiff, ?_⟩
  intro h
  obtain ⟨h1, -⟩ := hiff.mp h
  obtain ⟨line, -, h2⟩ := (defYieldAt_eq_some_iff doc i n).mp h1
  exact defYieldLine_not_dollar line n h2

/-- Witness for C2 at the document `["foo"]` with name `foo`, line 0. -/
theorem collectListDefinitions_last_occurrence_witness :
    ((getDef (collectListDefinitions [str "foo"]) (str "foo") = some 0 ↔
      defYieldAt [str "foo"] 0 = some (str "foo") ∧
      ∀ j, 0 < j → defYieldAt [str "foo"] j ≠ some (str "foo")) ∧
     (getDef (collectListDefinitions [str "foo"]) (str "foo") = some 0 →
      startsW (str "$") (str "foo") = false)) :=
  collectListDefinitions_last_occurrence [str "foo"] (str "foo") 0

/-- **C2 counterexample.** For the document
`["x", "  bar", "", "<div>", "hello", "dup", "dup"]` the markup boundary is 3,
yet `collectListDefinitions` maps `bar` to line 1 (declared only on an
*indented* line), `hello` to line 4 (declared only *at/after the boundary*),
and `dup` to line 6 — the *later* duplicate overwrote the first occurrence at
line 5 — falsifying all three restrictions asserted by the claim. -/
theorem collectListDefinitions_counterexample :
    findHtmlStart [str "x", str "  bar", str "", str "<div>", str "hello",
      str "dup", str "dup"] = 3 ∧
    getDef (collectListDefinitions [str "x", str "  bar", str "", str "<div>",
      str "hello", str "dup", str "dup"]) (str "bar") = some 1 ∧
    getDef (collectListDefinitions [str "x", str "  bar", str "", str "<div>",
      str "hello", str "dup", str "dup"]) (str "hello") = some 4 ∧
    getDef (collectListDefinitions [str "x", str "  bar", str "", str "<div>",
      str "hello", str "dup", str "dup"]) (str "dup") = some 6 := by
  refine ⟨by decide, by decide, by decide, by decide⟩

/-! ## Shared line classifiers of `validate-examples.js` and the copilot copy -/

/-- `parseListName(trimmedLine)`: strip a leading `async ` (then left-trim),
then match `/^[A-Za-z0-9_$][\w$-]*/`. -/
def parseListName (t : JSStr) : Option JSStr :=
  let t1 := if startsW (str "async ") t = true then jsTrimStart (t.drop 6) else t
  match t1 with
  | c :: rest => if isPLNStart c then some (c :: rest.takeWhile isPLNChar) else none
  | [] => none

/-- `isFunctionListStart(trimmedLine)` (copilot copy, lines 1106–1111):
`/\b=>\s*$/` — after trailing whitespace, the text ends in `=>` and the
character before the `=` is a word character (the `\b` boundary). -/
def isFunctionListStart (t : JSStr) : Bool :=
  match t.reverse.dropWhile isJsSpace with
  | '>' :: '=' :: c :: _ => isWordChar c
  | _ => false

/-- The un-prefixed body of `FUNCTION_HEADER_REGEX`:
`[A-Za-z_][A-Za-z0-9_$-]*\s*\([^)]*\)\s*=>\s*$`. -/
def matchFHCore (s : JSStr) : Bool :=
  match s with
  | c :: rest =>
    if isIdentStartE c then
      match (rest.dropWhile isFnNameChar).dropWhile isJsSpace with
      | '(' :: rest3 =>
        match rest3.dropWhile (fun x => !(x == ')')) with
        | ')' :: rest5 =>
          match rest5.dropWhile isJsSpace with
          | '=' :: '>' :: rest6 => rest6.all isJsSpace
          | _ => false
        | _ => false
      | _ => false
    else false
  | [] => false

/-- `FUNCTION_HEADER_REGEX = /^(async\s+)?[A-Za-z_][A-Za-z0-9_$-]*\s*\([^)]*\)\s*=>\s*$/`:
the core shape, optionally after `async` plus whitespace (the regex also
matches when the backtracked name is `async` itself, which the plain
`matchFHCore` disjunct covers). -/
def matchesFunctionHeader (s : JSStr) : Bool :=
  matchFHCore s ||
  (startsW (str "async") s &&
    (match s.drop 5 with
     | c :: _ => isJsSpace c
     | [] => false) &&
    matchFHCore ((s.drop 5).dropWhile isJsSpace))

/-- A whole-string identifier with the validator's charset
`[A-Za-z_][A-Za-z0-9_-]*`. -/
def isIdentV : JSStr → Bool
  | [] => false
  | c :: m => isIdentStartE c && m.all isIdentCharV

/-- Test of the validator's `LIST_BLOCK_HEADER_REGEX`
(`/^([A-Za-z_][A-Za-z0-9_-]*|\$[A-Za-z_][A-Za-z0-9_-]*)$/`). -/
def testBlockHeaderV (t : JSStr) : Bool :=
  match t with
  | '$' :: rest => isIdentV rest
  | _ => isIdentV t

/-- Test of the validator's `LIST_SHORTHAND_REGEX`
(`/^([A-Za-z_][A-Za-z0-9_-]*)\s*=/`). -/
def testShorthandV (t : JSStr) : Bool :=
  match t with
  | c :: rest =>
    if isIdentStartE c then
      match (rest.dropWhile isIdentCharV).dropWhile isJsSpace with
      | '=' :: _ => true
      | _ => false
    else false
  | [] => false

/-- Test of the validator's `DOLLAR_SHORTHAND_REGEX`
(`/^\$([A-Za-z_][A-Za-z0-9_-]*)\s*=/`). -/
def testDollarShorthandV (t : JSStr) : Bool :=
  match t with
  | '$' :: rest => testShorthandV rest
  | _ => false

/-- `isListHeaderLine(trimmedLine)` (`validate-examples.js` lines 112–126):
block header, shorthand, dollar shorthand, or function header. -/
def isListHeaderLine (t : JSStr) : Bool :=
  if t = [] then false
  else testBlockHeaderV t || testShorthandV t || testDollarShorthandV t ||
    matchesFunctionHeader t

/-- The skip condition of both analyzers' first loops:
`!trimmed || trimmed.startsWith("//")`. -/
def skipLine (line : JSStr) : Prop :=
  jsTrim line = [] ∨ startsW (str "//") (jsTrim line) = true

instance (line : JSStr) : Decidable (skipLine line) := by
  unfold skipLine
  exact inferInstance

/-- The leading `[\t ]+` run of a line (`line.match(/^[\t ]+/)`, empty when
there is no match). -/
def indentOf (line : JSStr) : JSStr := line.takeWhile isTabSpace

/-! ## The batch analyzer (`analyzePerchance`, `validate-examples.js`
lines 171–247) -/

/-- A batch warning's code; `duplicateList` carries the duplicated name
(which appears in the warning's message text). -/
inductive BCode where
  | duplicateList (name : JSStr)
  | mixedIndent
  | oddIndent
  | singleEquals
  | listAfterHtml
deriving DecidableEq

/-- One batch warning: `{ line: index + 1, code, message }` (the message is
determined by the code, so it is not modelled separately). -/
structure BWarn where
  line : Nat
  code : BCode
deriving DecidableEq

/-- JavaScript `Map.prototype.has`. -/
def hasDef (m : List (JSStr × Nat)) (n : JSStr) : Bool := (getDef m n).isSome

/-- The first loop of `analyzePerchance` over the lines before `htmlStart`,
threading `listNameIndex`: skip blank/`//` lines; at zero indentation run the
duplicate rule on `parseListName(trimmed)` (ignoring `$`-names); otherwise run
the two indentation rules; in both cases run the single-equals rule on the
comment-stripped content. -/
def analyzeListLoop : List JSStr → Nat → List (JSStr × Nat) → List BWarn × List (JSStr × Nat)
  | [], _, defs => ([], defs)
  | line :: rest, index, defs =>
    if skipLine line then
      analyzeListLoop rest (index + 1) defs
    else
      let indent := indentOf line
      let commentFree := stripComment (line.drop indent.length)
      let step :=
        if indent = [] then
          match parseListName (jsTrim line) with
          | some listName =>
            if startsW (str "$") listName = true then (([] : List BWarn), defs)
            else if hasDef defs listName then
              ([⟨index + 1, BCode.duplicateList listName⟩], defs)
            else (([] : List BWarn), defs ++ [(listName, index)])
          | none => (([] : List BWarn), defs)
        else
          ((if indent.contains '\t' ∧ indent.contains ' ' then
              [⟨index + 1, BCode.mixedIndent⟩] else []) ++
           (if (indent.filter (fun c => !(c == '\t'))).length % 2 ≠ 0 then
              [⟨index + 1, BCode.oddIndent⟩] else []),
           defs)
      let w2 := (findIfElseSingleEquals commentFree).map
        (fun _ => (⟨index + 1, BCode.singleEquals⟩ : BWarn))
      let res := analyzeListLoop rest (index + 1) step.2
      (step.1 ++ w2 ++ res.1, res.2)

/-- The second loop of `analyzePerchance` over the lines from `htmlStart` on:
skip blank lines and `<!--` comments; at the first list-header-shaped line
push one `list-after-html` warning and `break`. -/
def afterHtmlScan : List JSStr → Nat → List BWarn
  | [], _ => []
  | line :: rest, index =>
    let trimmed := jsTrim line
    if trimmed = [] ∨ startsW (str "<!--") trimmed = true then
      afterHtmlScan rest (index + 1)
    else if isListHeaderLine trimmed then [⟨index + 1, BCode.listAfterHtml⟩]
    else afterHtmlScan rest (index + 1)

/-- `analyzePerchance(content)` on the already-split lines. -/
def analyzePerchance (lines : List JSStr) : List BWarn :=
  let hs := findHtmlStart lines
  (analyzeListLoop (lines.take hs) 0 []).1 ++ afterHtmlScan (lines.drop hs) hs

/-- The final `listNameIndex` map built by `analyzePerchance`'s first loop. -/
def analyzePerchanceDefs (lines : List JSStr) : List (JSStr × Nat) :=
  (analyzeListLoop (lines.take (findHtmlStart lines)) 0 []).2

/-- The name recorded/flagged by the batch duplicate rule at one line:
zero indentation, non-blank, non-comment, and a non-`$` `parseListName`. -/
def topNameLine (line : JSStr) : Option JSStr :=
  if skipLine line then none
  else if indentOf line = [] then
    match parseListName (jsTrim line) with
    | some n => if startsW (str "$") n = true then none else some n
    | none => none
  else none

/-- `topNameLine` at line `i` of a document. -/
def topNameAt (doc : List JSStr) (i : Nat) : Option JSStr :=
  match doc[i]? with
  | some line => topNameLine line
  | none => none

/-! ## The interactive analyzer (`analyzeDocument`, copilot copy lines
916–1040).  `analyzeDocument` first emits the unknown-reference diagnostics
and then, unless all three toggles are off, runs the structural loop below
over the lines before `findHtmlStart`; the loop is the part the structural
claims are about. -/

inductive DCode where
  | duplicateListName
  | indentationMixed
  | indentationSpacing
  | ifElseSingleEquals
deriving DecidableEq

/-- An interactive diagnostic's range and code (message and severity are
determined by the code). -/
structure Diag where
  line : Nat
  colStart : Nat
  colEnd : Nat
  code : DCode
deriving DecidableEq

/-- `createDiagnostic(line, start, end, ...)`: the range end is
`Math.max(start + 1, end)`. -/
def createDiagnostic (line s e : Nat) (code : DCode) : Diag :=
  ⟨line, s, max (s + 1) e, code⟩

/-- The structural loop of `analyzeDocument`, threading `listNameIndex` and
`functionIndentLevel` (`fil`); `cd`, `ci`, `ce` are the three configuration
toggles (duplicates, indentation, if/else single equals). -/
def analyzeDocLoop (cd ci ce : Bool) :
    List JSStr → Nat → List (JSStr × Nat) → Option Nat → List Diag
  | [], _, _, _ => []
  | line :: rest, index, names, fil =>
    if skipLine line then
      analyzeDocLoop cd ci ce rest (index + 1) names fil
    else
      let indent := indentOf line
      let indentLevel := countIndentLevel indent
      let commentFree := stripComment (line.drop indent.length)
      let cft := jsTrim commentFree
      let fil1 := match fil with
        | some l => if jsTrim line ≠ [] ∧ indentLevel ≤ l then none else fil
        | none => none
      let fil2 := if isFunctionListStart cft then some indentLevel else fil1
      let step :=
        if cd = true ∧ indent = [] ∧ jsTrim line ≠ [] then
          match parseListName cft with
          | some listName =>
            if hasDef names listName then
              ([createDiagnostic index 0 listName.length DCode.duplicateListName], names)
            else (([] : List Diag), names ++ [(listName, index)])
          | none => (([] : List Diag), names)
        else (([] : List Diag), names)
      let indentDiags :=
        if ci = true ∧ indent ≠ [] then
          (if indent.contains '\t' ∧ indent.contains ' ' then
            [createDiagnostic index 0 indent.length DCode.indentationMixed] else []) ++
          (if (indent.filter (fun c => !(c == '\t'))).length % 2 ≠ 0 then
            [createDiagnostic index 0 indent.length DCode.indentationSpacing] else [])
        else []
      let skip : Bool := match fil2 with
        | some l => decide (l < indentLevel)
        | none => false
      let eqDiags :=
        if ce = true ∧ skip = false then
          (findIfElseSingleEquals commentFree).map (fun w =>
            createDiagnostic index (indent.length + w.1) (indent.length + w.2)
              DCode.ifElseSingleEquals)
        else []
      step.1 ++ indentDiags ++ eqDiags ++
        analyzeDocLoop cd ci ce rest (index + 1) step.2 fil2

/-- The structural diagnostics of `analyzeDocument` (everything except the
unknown-reference pass, which precedes them in the returned array). -/
def analyzeDocumentChecks (cd ci ce : Bool) (lines : List JSStr) : List Diag :=
  analyzeDocLoop cd ci ce (lines.take (findHtmlStart lines)) 0 [] none

/-- **C7 (code bug).** The claim — and the spec — say that after a
function-header line of the shape `name(...) =>` every more-indented line is
suppressed from the single-equals rule.  But `isFunctionListStart` tests
`/\b=>\s*$/`, and in a `name(...) =>` header the character before `=>` is `)`
or a space, never a word character, so the `\b` boundary never matches:
`foo(x) =>` matches `FUNCTION_HEADER_REGEX` yet fails `isFunctionListStart`,
the suppression never engages, and the indented body line
`\t[a = 1 ? b : c]` is flagged by the engine. -/
theorem function_body_suppression_never_engages :
    matchesFunctionHeader (str "foo(x) =>") = true ∧
    isFunctionListStart (str "foo(x) =>") = false ∧
    analyzeDocumentChecks true true true [str "foo(x) =>", str "\t[a = 1 ? b : c]"] =
      [⟨1, 1, 16, DCode.ifElseSingleEquals⟩] ∧
    analyzePerchance [str "foo(x) =>", str "\t[a = 1 ? b : c]"] =
      [⟨2, BCode.singleEquals⟩] := by
  refine ⟨by decide, by decide, by decide, by decide⟩

/-! ### Batch analyzer: per-line normal form -/

/-- The duplicate warning (if any) of one batch-loop iteration. -/
def dupWarnOf (line : JSStr) (idx : Nat) (defs : List (JSStr × Nat)) : List BWarn :=
  match topNameLine line with
  | some n' => if hasDef defs n' then [⟨idx + 1, BCode.duplicateList n'⟩] else []
  | none => []

/-- The `listNameIndex` update of one batch-loop iteration. -/
def dupStepDefs (line : JSStr) (idx : Nat) (defs : List (JSStr × Nat)) :
    List (JSStr × Nat) :=
  match topNameLine line with
  | some n' => if hasDef defs n' then defs else defs ++ [(n', idx)]
  | none => defs

/-- The indentation warnings of one batch-loop iteration. -/
def indentWarnsOf (line : JSStr) (idx : Nat) : List BWarn :=
  if skipLine line then []
  else if indentOf line = [] then []
  else
    (if (indentOf line).contains '\t' ∧ (indentOf line).contains ' ' then
      [⟨idx + 1, BCode.mixedIndent⟩] else []) ++
    (if ((indentOf line).filter (fun c => !(c == '\t'))).length % 2 ≠ 0 then
      [⟨idx + 1, BCode.oddIndent⟩] else [])

/-- The single-equals warnings of one batch-loop iteration. -/
def eqWarnsOf (line : JSStr) (idx : Nat) : List BWarn :=
  if skipLine line then []
  else
    (findIfElseSingleEquals (stripComment (line.drop (indentOf line).length))).map
      (fun _ => ⟨idx + 1, BCode.singleEquals⟩)

lemma topNameLine_of_skip {line : JSStr} (h : skipLine line) :
    topNameLine line = none := by
  rw [topNameLine]
  rw [if_pos h]

lemma analyzeListLoop_cons (line : JSStr) (rest : List JSStr) (idx : Nat)
    (defs : List (JSStr × Nat)) :
    analyzeListLoop (line :: rest) idx defs =
      ((dupWarnOf line idx defs ++ indentWarnsOf line idx ++ eqWarnsOf line idx) ++
         (analyzeListLoop rest (idx + 1) (dupStepDefs line idx defs)).1,
       (analyzeListLoop rest (idx + 1) (dupStepDefs line idx defs)).2) := by
  rw [analyzeListLoop]
  by_cases hskip : skipLine line
  · rw [if_pos hskip]
    rw [show dupWarnOf line idx defs = [] from by
      rw [dupWarnOf, topNameLine_of_skip hskip]]
    rw [show dupStepDefs line idx defs = defs from by
      rw [dupStepDefs, topNameLine_of_skip hskip]]
    rw [show indentWarnsOf line idx = [] from by rw [indentWarnsOf, if_pos hskip]]
    rw [show eqWarnsOf line idx = [] from by rw [eqWarnsOf, if_pos hskip]]
    simp
  · rw [if_neg hskip]
    simp only [indentWarnsOf, eqWarnsOf, dupWarnOf, dupStepDefs, topNameLine, if_neg hskip]
    by_cases hind : indentOf line = []
    · simp only [if_pos hind]
      cases hp : parseListName (jsTrim line) with
      | none => simp
      | some n =>
        by_cases hdollar : startsW (str "$") n = true
        · simp [hdollar]
        · by_cases hhas : hasDef defs n
          · simp [hdollar, hhas]
          · simp [hdollar, hhas]
    · simp only [if_neg hind]
      simp

lemma getDef_append_one (defs : List (JSStr × Nat)) (k : JSStr) (v : Nat) (n : JSStr) :
    getDef (defs ++ [(k, v)]) n =
      match getDef defs n with
      | some w => some w
      | none => if k = n then some v else none := by
  induction defs with
  | nil => simp [getDef]
  | cons e rest ih =>
    obtain ⟨k', v'⟩ := e
    by_cases hk : k' = n
    · simp [getDef, hk]
    · simp only [List.cons_append, getDef, if_neg hk]
      exact ih

lemma hasDef_dupStepDefs (line : JSStr) (idx : Nat) (defs : List (JSStr × Nat)) (n : JSStr) :
    hasDef (dupStepDefs line idx defs) n =
      (hasDef defs n || decide (topNameLine line = some n)) := by
  cases ht : topNameLine line with
  | none => simp [dupStepDefs, ht]
  | some n' =>
    simp only [dupStepDefs, ht]
    by_cases hhas : hasDef defs n'
    · rw [if_pos hhas]
      by_cases hn : n' = n
      · subst hn
        simp [hhas]
      · simp [hn]
    · rw [if_neg hhas]
      rw [hasDef, getDef_append_one]
      cases hg : getDef defs n with
      | some w => simp [hasDef, hg]
      | none =>
        by_cases hn : n' = n
        · rw [if_pos hn]
          simp [hasDef, hg, hn]
        · rw [if_neg hn]
          simp [hasDef, hg, hn]

lemma count_dup_indentWarns (line : JSStr) (idx m : Nat) (n : JSStr) :
    (indentWarnsOf line idx).count ⟨m, BCode.duplicateList n⟩ = 0 := by
  rw [List.count_eq_zero]
  rw [indentWarnsOf]
  split_ifs <;> simp

lemma count_dup_eqWarns (line : JSStr) (idx m : Nat) (n : JSStr) :
    (eqWarnsOf line idx).count ⟨m, BCode.duplicateList n⟩ = 0 := by
  rw [List.count_eq_zero]
  rw [eqWarnsOf]
  split_ifs <;> simp

lemma count_dupWarnOf (line : JSStr) (idx m : Nat) (defs : List (JSStr × Nat)) (n : JSStr) :
    (dupWarnOf line idx defs).count ⟨m, BCode.duplicateList n⟩ =
      if topNameLine line = some n ∧ hasDef defs n = true ∧ m = idx + 1 then 1 else 0 := by
  cases ht : topNameLine line with
  | none => simp [dupWarnOf, ht]
  | some n' =>
    simp only [dupWarnOf, ht]
    by_cases hhas : hasDef defs n'
    · rw [if_pos hhas]
      by_cases hn : n' = n
      · subst hn
        by_cases hm : m = idx + 1
        · subst hm
          rw [if_pos ⟨rfl, hhas, rfl⟩]
          simp [List.count_cons]
        · rw [if_neg (by rintro ⟨-, -, hc⟩; exact hm hc)]
          simp [List.count_cons, Ne.symm hm]
      · rw [if_neg (by rintro ⟨hc, -, -⟩; rw [Option.some.injEq] at hc; exact hn hc)]
        simp [List.count_cons, hn]
    · rw [if_neg hhas]
      rw [if_neg (by
        rintro ⟨hc, hc2, -⟩
        rw [Option.some.injEq] at hc
        subst hc
        exact hhas hc2)]
      simp

lemma topNameAt_cons_zero (line : JSStr) (rest : List JSStr) :
    topNameAt (line :: rest) 0 = topNameLine line := by
  simp [topNameAt]

lemma topNameAt_cons_succ (line : JSStr) (rest : List JSStr) (k : Nat) :
    topNameAt (line :: rest) (k + 1) = topNameAt rest k := by
  simp [topNameAt]

lemma analyzeListLoop_dup_count : ∀ (L : List JSStr) (idx : Nat)
    (defs : List (JSStr × Nat)) (m : Nat) (n : JSStr),
    ((analyzeListLoop L idx defs).1.count ⟨m, BCode.duplicateList n⟩) =
      if ∃ k, k < L.length ∧ topNameAt L k = some n ∧ m = idx + k + 1 ∧
          (hasDef defs n = true ∨ ∃ j, j < k ∧ topNameAt L j = some n)
      then 1 else 0 := by
  intro L
  induction L with
  | nil =>
    intro idx defs m n
    rw [if_neg (by rintro ⟨k, hk, -⟩; simp at hk)]
    simp [analyzeListLoop]
  | cons line rest ih =>
    intro idx defs m n
    rw [analyzeListLoop_cons]
    simp only [List.count_append]
    rw [count_dup_indentWarns, count_dup_eqWarns, count_dupWarnOf, ih]
    have hA : ∀ {p q : Prop} [Decidable p] [Decidable q], (p → ¬ q) →
        ((if p then 1 else 0) + (if q then 1 else 0) : Nat) = if p ∨ q then 1 else 0 := by
      intro p q _ _ hpq
      by_cases hp : p
      · rw [if_pos hp, if_neg (hpq hp), if_pos (Or.inl hp)]
      · by_cases hq : q
        · rw [if_neg hp, if_pos hq, if_pos (Or.inr hq)]
        · rw [if_neg hp, if_neg hq, if_neg (by rintro (h | h) <;> [exact hp h; exact hq h])]
    rw [show ((if topNameLine line = some n ∧ hasDef defs n = true ∧ m = idx + 1
          then 1 else 0) + 0 + 0 : Nat) =
        (if topNameLine line = some n ∧ hasDef defs n = true ∧ m = idx + 1
          then 1 else 0) from by omega]
    rw [hA (by rintro ⟨-, -, hm⟩ ⟨k, -, -, hm2, -⟩; omega)]
    congr 1
    rw [eq_iff_iff]
    constructor
    · rintro (⟨h1, h2, h3⟩ | ⟨k, hk, h1, h2, h3⟩)
      · exact ⟨0, by simp, by rwa [topNameAt_cons_zero], by omega, Or.inl h2⟩
      · refine ⟨k + 1, by simp; omega, by rwa [topNameAt_cons_succ], by omega, ?_⟩
        rw [hasDef_dupStepDefs, Bool.or_eq_true, decide_eq_true_iff] at h3
        rcases h3 with (h3 | h3) | ⟨j, hj, h3⟩
        · exact Or.inl h3
        · exact Or.inr ⟨0, by omega, by rwa [topNameAt_cons_zero]⟩
        · exact Or.inr ⟨j + 1, by omega, by rwa [topNameAt_cons_succ]⟩
    · rintro ⟨k, hk, h1, h2, h3⟩
      match k with
      | 0 =>
        left
        rw [topNameAt_cons_zero] at h1
        rcases h3 with h3 | ⟨j, hj, -⟩
        · exact ⟨h1, h3, by omega⟩
        · omega
      | k' + 1 =>
        right
        rw [topNameAt_cons_succ] at h1
        refine ⟨k', by simp at hk; omega, h1, by omega, ?_⟩
        rw [hasDef_dupStepDefs, Bool.or_eq_true, decide_eq_true_iff]
        rcases h3 with h3 | ⟨j, hj, h3⟩
        · exact Or.inl (Or.inl h3)
        · match j with
          | 0 =>
            rw [topNameAt_cons_zero] at h3
            exact Or.inl (Or.inr h3)
          | j' + 1 =>
            rw [topNameAt_cons_succ] at h3
            exact Or.inr ⟨j', by omega, h3⟩

/-- The first index of `L` whose line records the name `n` in the batch
duplicate rule. -/
def firstTopYield : List JSStr → JSStr → Option Nat
  | [], _ => none
  | line :: rest, n =>
    if topNameLine line = some n then some 0 else (firstTopYield rest n).map (· + 1)

lemma getDef_dupStepDefs (line : JSStr) (idx : Nat) (defs : List (JSStr × Nat)) (n : JSStr) :
    getDef (dupStepDefs line idx defs) n =
      match getDef defs n with
      | some v => some v
      | none => if topNameLine line = some n then some idx else none := by
  cases ht : topNameLine line with
  | none =>
    simp only [dupStepDefs, ht]
    cases hg : getDef defs n <;> simp
  | some m =>
    simp only [dupStepDefs, ht]
    by_cases hhas : hasDef defs m
    · rw [if_pos hhas]
      cases hg : getDef defs n with
      | some v => simp
      | none =>
        simp only
        rw [if_neg (by
          rintro hc
          rw [Option.some.injEq] at hc
          subst hc
          rw [hasDef, hg] at hhas
          simp at hhas)]
    · rw [if_neg hhas]
      rw [getDef_append_one]
      cases hg : getDef defs n with
      | some v => simp
      | none =>
        simp only
        by_cases hm : m = n
        · rw [if_pos hm, if_pos (by rw [hm])]
        · rw [if_neg hm, if_neg (by
            rintro hc
            rw [Option.some.injEq] at hc
            exact hm hc)]

lemma analyzeListLoop_defs : ∀ (L : List JSStr) (idx : Nat)
    (defs : List (JSStr × Nat)) (n : JSStr),
    getDef ((analyzeListLoop L idx defs).2) n =
      match getDef defs n with
      | some v => some v
      | none => (firstTopYield L n).map (idx + ·) := by
  intro L
  induction L with
  | nil =>
    intro idx defs n
    simp only [analyzeListLoop, firstTopYield]
    cases getDef defs n <;> simp
  | cons line rest ih =>
    intro idx defs n
    rw [analyzeListLoop_cons]
    simp only
    rw [ih, getDef_dupStepDefs]
    cases hg : getDef defs n with
    | some v => simp
    | none =>
      simp only [firstTopYield]
      by_cases ht : topNameLine line = some n
      · rw [if_pos ht, if_pos ht]
        simp
      · rw [if_neg ht, if_neg ht]
        cases firstTopYield rest n with
        | none => simp
        | some k =>
          simp only [Option.map_some']
          rw [Option.some.injEq]
          omega

lemma firstTopYield_eq_some_iff : ∀ (L : List JSStr) (n : JSStr) (k : Nat),
    firstTopYield L n = some k ↔
      topNameAt L k = some n ∧ ∀ j, j < k → topNameAt L j ≠ some n := by
  intro L
  induction L with
  | nil =>
    intro n k
    simp [firstTopYield, topNameAt]
  | cons line rest ih =>
    intro n k
    rw [firstTopYield]
    by_cases ht : topNameLine line = some n
    · rw [if_pos ht]
      constructor
      · intro hk
        rw [Option.some.injEq] at hk
        subst hk
        exact ⟨by rwa [topNameAt_cons_zero], by omega⟩
      · rintro ⟨h1, h2⟩
        match k with
        | 0 => rfl
        | kk + 1 => exact absurd (by rwa [topNameAt_cons_zero]) (h2 0 (by omega))
    · rw [if_neg ht]
      constructor
      · intro hk
        rcases Option.map_eq_some'.mp hk with ⟨k', hk', hkk⟩
        subst hkk
        obtain ⟨h1, h2⟩ := ih n k' |>.mp hk'
        refine ⟨by rwa [topNameAt_cons_succ], ?_⟩
        intro j hj
        match j with
        | 0 => rw [topNameAt_cons_zero]; exact ht
        | j' + 1 =>
          rw [topNameAt_cons_succ]
          exact h2 j' (by omega)
      · rintro ⟨h1, h2⟩
        match k with
        | 0 => exact absurd (by rwa [topNameAt_cons_zero] at h1) ht
        | kk + 1 =>
          rw [topNameAt_cons_succ] at h1
          have hfy := (ih n kk).mpr ⟨h1, fun j hj => by
            have := h2 (j + 1) (by omega)
            rwa [topNameAt_cons_succ] at this⟩
          rw [hfy]
          rfl

lemma afterHtmlScan_codes : ∀ (L : List JSStr) (idx : Nat) (w : BWarn),
    w ∈ afterHtmlScan L idx → w.code = BCode.listAfterHtml := by
  intro L
  induction L with
  | nil => intro idx w hw; simp [afterHtmlScan] at hw
  | cons line rest ih =>
    intro idx w hw
    rw [afterHtmlScan] at hw
    split_ifs at hw with h1 h2
    · exact ih (idx + 1) w hw
    · rw [List.mem_singleton] at hw
      rw [hw]
    · exact ih (idx + 1) w hw

lemma topNameAt_take {lines : List JSStr} {hs k : Nat} (h : k < hs) :
    topNameAt (lines.take hs) k = topNameAt lines k := by
  unfold topNameAt
  rw [List.getElem?_take, if_pos h]

lemma topNameAt_lt_length {lines : List JSStr} {i : Nat} {n : JSStr}
    (h : topNameAt lines i = some n) : i < lines.length := by
  unfold topNameAt at h
  cases hg : lines[i]? with
  | none => rw [hg] at h; simp at h
  | some l =>
    obtain ⟨hlt, -⟩ := List.getElem?_eq_some.mp hg
    exact hlt

/-! ### C8: the two indentation rules -/

/-- `analyzePerchance`'s mixed-indentation condition at one line: reachable
(non-blank, non-`//`), indented, and the leading `[\t ]+` run has both a tab
and a space. -/
def mixedIndentLine (line : JSStr) : Prop :=
  ¬ skipLine line ∧ indentOf line ≠ [] ∧
  (indentOf line).contains '\t' = true ∧ (indentOf line).contains ' ' = true

/-- `analyzePerchance`'s odd-indentation condition at one line: reachable,
indented, and the number of non-tab characters of the leading run is odd. -/
def oddIndentLine (line : JSStr) : Prop :=
  ¬ skipLine line ∧ indentOf line ≠ [] ∧
  ((indentOf line).filter (fun c => !(c == '\t'))).length % 2 ≠ 0

instance (line : JSStr) : Decidable (mixedIndentLine line) := by
  unfold mixedIndentLine
  exact inferInstance

instance (line : JSStr) : Decidable (oddIndentLine line) := by
  unfold oddIndentLine
  exact inferInstance

lemma mem_dupWarnOf_shape (line : JSStr) (idx : Nat) (defs : List (JSStr × Nat))
    (w : BWarn) (h : w ∈ dupWarnOf line idx defs) :
    ∃ n, w = ⟨idx + 1, BCode.duplicateList n⟩ := by
  unfold dupWarnOf at h
  split at h
  · split at h
    · simp only [List.mem_singleton] at h
      exact ⟨_, h⟩
    · simp at h
  · simp at h

lemma mem_eqWarnsOf_shape (line : JSStr) (idx : Nat) (w : BWarn)
    (h : w ∈ eqWarnsOf line idx) : w = ⟨idx + 1, BCode.singleEquals⟩ := by
  unfold eqWarnsOf at h
  split at h
  · simp at h
  · rw [List.mem_map] at h
    obtain ⟨-, -, hw⟩ := h
    exact hw.symm

lemma mem_indentWarnsOf_mixed (line : JSStr) (idx m : Nat) :
    ((⟨m, BCode.mixedIndent⟩ : BWarn) ∈ indentWarnsOf line idx) ↔
      (mixedIndentLine line ∧ m = idx + 1) := by
  unfold indentWarnsOf mixedIndentLine
  by_cases hskip : skipLine line
  · simp [hskip]
  · rw [if_neg hskip]
    by_cases hind : indentOf line = []
    · simp [hind, hskip]
    · rw [if_neg hind]
      rw [List.mem_append]
      by_cases hmix : (indentOf line).contains '\t' = true ∧ (indentOf line).contains ' ' = true
    
      · rw [if_pos hmix]
        by_cases hodd : ((indentOf line).filter (fun c => !(c == '\t'))).length % 2 ≠ 0
        · rw [if_pos hodd]
          simp only [List.mem_singleton, BWarn.mk.injEq]
          constructor
          · rintro (⟨hm, -⟩ | ⟨-, hc⟩)
            · exact ⟨⟨hskip, hind, hmix⟩, hm⟩
            · simp at hc
          · rintro ⟨-, hm⟩
            exact Or.inl ⟨hm, trivial⟩
        · rw [if_neg hodd]
          simp only [List.mem_singleton, List.not_mem_nil, or_false, BWarn.mk.injEq]
          constructor
          · rintro ⟨hm, -⟩
            exact ⟨⟨hskip, hind, hmix⟩, hm⟩
          · rintro ⟨-, hm⟩
            exact ⟨hm, trivial⟩
      · rw [if_neg hmix]
        simp only [List.not_mem_nil, false_or]
        constructor
        · intro h
          split at h
          · simp only [List.mem_singleton, BWarn.mk.injEq] at h
            obtain ⟨-, hc⟩ := h
            simp at hc
          · simp at h
        · rintro ⟨⟨-, -, hc⟩, -⟩
          exact absurd hc hmix

lemma mem_indentWarnsOf_odd (line : JSStr) (idx m : Nat) :
    ((⟨m, BCode.oddIndent⟩ : BWarn) ∈ indentWarnsOf line idx) ↔
      (oddIndentLine line ∧ m = idx + 1) := by
  unfold indentWarnsOf oddIndentLine
  by_cases hskip : skipLine line
  · simp [hskip]
  · rw [if_neg hskip]
    by_cases hind : indentOf line = []
    · simp [hind, hskip]
    · rw [if_neg hind]
      rw [List.mem_append]
      by_cases hodd : ((indentOf line).filter (fun c => !(c == '\t'))).length % 2 ≠ 0
      · rw [if_pos hodd]
        simp only [List.mem_singleton, BWarn.mk.injEq]
        constructor
        · intro h
          rcases h with h | ⟨hm, -⟩
          · split at h
            · simp only [List.mem_singleton, BWarn.mk.injEq] at h
              obtain ⟨-, hc⟩ := h
              simp at hc
            · simp at h
          · exact ⟨⟨hskip, hind, hodd⟩, hm⟩
        · rintro ⟨-, hm⟩
          exact Or.inr ⟨hm, trivial⟩
      · rw [if_neg hodd]
        simp only [List.not_mem_nil, or_false]
        constructor
        · intro h
          split at h
          · simp only [List.mem_singleton, BWarn.mk.injEq] at h
            obtain ⟨-, hc⟩ := h
            simp at hc
          · simp at h
        · rintro ⟨⟨-, -, hc⟩, -⟩
          exact absurd hc hodd

lemma analyzeListLoop_indent_mem (c : BCode) (P : JSStr → Prop)
    (hseg : ∀ (line : JSStr) (idx m : Nat),
      ((⟨m, c⟩ : BWarn) ∈ indentWarnsOf line idx) ↔ (P line ∧ m = idx + 1))
    (hdup : ∀ n, c ≠ BCode.duplicateList n) (heq : c ≠ BCode.singleEquals) :
    ∀ (L : List JSStr) (idx : Nat) (defs : List (JSStr × Nat)) (m : Nat),
    ((⟨m, c⟩ : BWarn) ∈ (analyzeListLoop L idx defs).1) ↔
      ∃ k, k < L.length ∧ m = idx + k + 1 ∧
        ∃ line, L[k]? = some line ∧ P line := by
  intro L
  induction L with
  | nil =>
    intro idx defs m
    simp [analyzeListLoop]
  | cons line rest ih =>
    intro idx defs m
    rw [analyzeListLoop_cons]
    simp only [List.mem_append]
    constructor
    · rintro (((h | h) | h) | h)
      · obtain ⟨n, hn⟩ := mem_dupWarnOf_shape line idx defs _ h
        have hc : c = BCode.duplicateList n := congrArg BWarn.code hn
        exact absurd hc (hdup n)
      · obtain ⟨hP, hm⟩ := (hseg line idx m).mp h
        exact ⟨0, by simp, by omega, line, by simp, hP⟩
      · have hc : c = BCode.singleEquals :=
          congrArg BWarn.code (mem_eqWarnsOf_shape line idx _ h)
        exact absurd hc heq
      · obtain ⟨k, hk, hm, l', hl', hP⟩ := (ih (idx + 1) (dupStepDefs line idx defs) m).mp h
        exact ⟨k + 1, by simp; omega, by omega, l', by simpa using hl', hP⟩
    · rintro ⟨k, hk, hm, l', hl', hP⟩
      cases k with
      | zero =>
        simp only [List.getElem?_cons_zero, Option.some.injEq] at hl'
        subst hl'
        exact Or.inl (Or.inl (Or.inr ((hseg line idx m).mpr ⟨hP, by omega⟩)))
      | succ k =>
        simp only [List.getElem?_cons_succ] at hl'
        refine Or.inr ((ih (idx + 1) (dupStepDefs line idx defs) m).mpr
          ⟨k, ?_, by omega, l', hl', hP⟩)
        simp at hk
        omega

/-! ### Interactive analyzer: per-line normal form -/

/-- The `functionIndentLevel` update of one interactive-loop iteration. -/
def docStepFil (line : JSStr) (fil : Option Nat) : Option Nat :=
  if skipLine line then fil
  else
    let indentLevel := countIndentLevel (indentOf line)
    let cft := jsTrim (stripComment (line.drop (indentOf line).length))
    let fil1 := match fil with
      | some l => if jsTrim line ≠ [] ∧ indentLevel ≤ l then none else fil
      | none => none
    if isFunctionListStart cft then some indentLevel else fil1

/-- The duplicate diagnostics of one interactive-loop iteration. -/
def docDupOf (cd : Bool) (line : JSStr) (idx : Nat) (names : List (JSStr × Nat)) :
    List Diag :=
  if skipLine line then []
  else if cd = true ∧ indentOf line = [] ∧ jsTrim line ≠ [] then
    match parseListName (jsTrim (stripComment (line.drop (indentOf line).length))) with
    | some listName =>
      if hasDef names listName then
        [createDiagnostic idx 0 listName.length DCode.duplicateListName]
      else []
    | none => []
  else []

/-- The `listNameIndex` update of one interactive-loop iteration. -/
def docDupDefs (cd : Bool) (line : JSStr) (idx : Nat) (names : List (JSStr × Nat)) :
    List (JSStr × Nat) :=
  if skipLine line then names
  else if cd = true ∧ indentOf line = [] ∧ jsTrim line ≠ [] then
    match parseListName (jsTrim (stripComment (line.drop (indentOf line).length))) with
    | some listName =>
      if hasDef names listName then names else names ++ [(listName, idx)]
    | none => names
  else names

/-- The indentation diagnostics of one interactive-loop iteration. -/
def docIndentOf (ci : Bool) (line : JSStr) (idx : Nat) : List Diag :=
  if skipLine line then []
  else if ci = true ∧ indentOf line ≠ [] then
    (if (indentOf line).contains '\t' ∧ (indentOf line).contains ' ' then
      [createDiagnostic idx 0 (indentOf line).length DCode.indentationMixed] else []) ++
    (if ((indentOf line).filter (fun c => !(c == '\t'))).length % 2 ≠ 0 then
      [createDiagnostic idx 0 (indentOf line).length DCode.indentationSpacing] else [])
  else []

/-- The single-equals diagnostics of one interactive-loop iteration. -/
def docEqOf (ce : Bool) (line : JSStr) (idx : Nat) (fil : Option Nat) : List Diag :=
  if skipLine line then []
  else
    let skip : Bool := match docStepFil line fil with
      | some l => decide (l < countIndentLevel (indentOf line))
      | none => false
    if ce = true ∧ skip = false then
      (findIfElseSingleEquals (stripComment (line.drop (indentOf line).length))).map
        (fun w =>
          createDiagnostic idx ((indentOf line).length + w.1) ((indentOf line).length + w.2)
            DCode.ifElseSingleEquals)
    else []

lemma analyzeDocLoop_cons (cd ci ce : Bool) (line : JSStr) (rest : List JSStr)
    (idx : Nat) (names : List (JSStr × Nat)) (fil : Option Nat) :
    analyzeDocLoop cd ci ce (line :: rest) idx names fil =
      docDupOf cd line idx names ++ docIndentOf ci line idx ++ docEqOf ce line idx fil ++
        analyzeDocLoop cd ci ce rest (idx + 1) (docDupDefs cd line idx names)
          (docStepFil line fil) := by
  rw [analyzeDocLoop]
  by_cases hskip : skipLine line
  · rw [if_pos hskip]
    rw [show docDupOf cd line idx names = [] from by rw [docDupOf, if_pos hskip]]
    rw [show docIndentOf ci line idx = [] from by rw [docIndentOf, if_pos hskip]]
    rw [show docEqOf ce line idx fil = [] from by rw [docEqOf, if_pos hskip]]
    rw [show docDupDefs cd line idx names = names from by rw [docDupDefs, if_pos hskip]]
    rw [show docStepFil line fil = fil from by rw [docStepFil, if_pos hskip]]
    simp
  · simp only [if_neg hskip, docDupOf, docIndentOf, docEqOf, docDupDefs, docStepFil,
      List.append_assoc]
    by_cases hC : cd = true ∧ indentOf line = [] ∧ jsTrim line ≠ []
    · simp only [if_pos hC]
      cases hp : parseListName (jsTrim (stripComment (line.drop (indentOf line).length))) with
      | none => simp
      | some n =>
        by_cases hh : hasDef names n = true
        · simp [hh]
        · simp [hh]
    · simp only [if_neg hC]

lemma mem_docDupOf_code (cd : Bool) (line : JSStr) (idx : Nat)
    (names : List (JSStr × Nat)) (d : Diag) (h : d ∈ docDupOf cd line idx names) :
    d.code = DCode.duplicateListName := by
  unfold docDupOf at h
  split at h
  · simp at h
  · split at h
    · split at h
      · split at h
        · simp only [List.mem_singleton] at h
          rw [h]
          rfl
        · simp at h
      · simp at h
    · simp at h

lemma mem_docEqOf_code (ce : Bool) (line : JSStr) (idx : Nat) (fil : Option Nat)
    (d : Diag) (h : d ∈ docEqOf ce line idx fil) :
    d.code = DCode.ifElseSingleEquals := by
  simp only [docEqOf] at h
  split at h
  · simp at h
  · split at h
    · rw [List.mem_map] at h
      obtain ⟨w, -, hw⟩ := h
      rw [← hw]
      rfl
    · simp at h

lemma mem_docIndentOf_mixed (line : JSStr) (idx : Nat) (d : Diag) :
    (d ∈ docIndentOf true line idx ∧ d.code = DCode.indentationMixed) ↔
      (mixedIndentLine line ∧
        d = createDiagnostic idx 0 (indentOf line).length DCode.indentationMixed) := by
  by_cases hskip : skipLine line
  · simp [docIndentOf, hskip, mixedIndentLine]
  · by_cases hind : indentOf line = []
    · simp [docIndentOf, hskip, hind, mixedIndentLine]
    · unfold docIndentOf
      rw [if_neg hskip, if_pos (show (true = true ∧ indentOf line ≠ []) from ⟨rfl, hind⟩)]
      by_cases hmix : (indentOf line).contains '\t' = true ∧ (indentOf line).contains ' ' = true
      · rw [if_pos hmix]
        constructor
        · rintro ⟨hm, hc⟩
          rw [List.mem_append] at hm
          rcases hm with hm | hm
          · simp only [List.mem_singleton] at hm
            exact ⟨⟨hskip, hind, hmix⟩, hm⟩
          · split at hm
            · simp only [List.mem_singleton] at hm
              rw [hm] at hc
              simp [createDiagnostic] at hc
            · simp at hm
        · rintro ⟨-, hd⟩
          refine ⟨List.mem_append.mpr (Or.inl ?_), by rw [hd]; rfl⟩
          simp [hd]
      · rw [if_neg hmix]
        simp only [List.nil_append]
        constructor
        · rintro ⟨hm, hc⟩
          split at hm
          · simp only [List.mem_singleton] at hm
            rw [hm] at hc
            simp [createDiagnostic] at hc
          · simp at hm
        · rintro ⟨⟨-, -, hc⟩, -⟩
          exact absurd hc hmix

lemma mem_docIndentOf_spacing (line : JSStr) (idx : Nat) (d : Diag) :
    (d ∈ docIndentOf true line idx ∧ d.code = DCode.indentationSpacing) ↔
      (oddIndentLine line ∧
        d = createDiagnostic idx 0 (indentOf line).length DCode.indentationSpacing) := by
  by_cases hskip : skipLine line
  · simp [docIndentOf, hskip, oddIndentLine]
  · by_cases hind : indentOf line = []
    · simp [docIndentOf, hskip, hind, oddIndentLine]
    · unfold docIndentOf
      rw [if_neg hskip, if_pos (show (true = true ∧ indentOf line ≠ []) from ⟨rfl, hind⟩)]
      by_cases hodd : ((indentOf line).filter (fun c => !(c == '\t'))).length % 2 ≠ 0
      · rw [if_pos hodd]
        constructor
        · rintro ⟨hm, hc⟩
          rw [List.mem_append] at hm
          rcases hm with hm | hm
          · split at hm
            · simp only [List.mem_singleton] at hm
              rw [hm] at hc
              simp [createDiagnostic] at hc
            · simp at hm
          · simp only [List.mem_singleton] at hm
            exact ⟨⟨hskip, hind, hodd⟩, hm⟩
        · rintro ⟨-, hd⟩
          refine ⟨List.mem_append.mpr (Or.inr ?_), by rw [hd]; rfl⟩
          simp [hd]
      · rw [if_neg hodd]
        constructor
        · rintro ⟨hm, hc⟩
          rw [List.mem_append] at hm
          rcases hm with hm | hm
          · split at hm
            · simp only [List.mem_singleton] at hm
              rw [hm] at hc
              simp [createDiagnostic] at hc
            · simp at hm
          · simp at hm
        · rintro ⟨⟨-, -, hc⟩, -⟩
          exact absurd hc hodd

lemma analyzeDocLoop_indent_mem (c : DCode) (P : JSStr → Prop) (cd ce : Bool)
    (hseg : ∀ (line : JSStr) (idx : Nat) (d : Diag),
      (d ∈ docIndentOf true line idx ∧ d.code = c) ↔
        (P line ∧ d = createDiagnostic idx 0 (indentOf line).length c))
    (hdup : c ≠ DCode.duplicateListName) (heqc : c ≠ DCode.ifElseSingleEquals) :
    ∀ (L : List JSStr) (idx : Nat) (names : List (JSStr × Nat)) (fil : Option Nat)
      (i : Nat),
    (∃ d, d ∈ analyzeDocLoop cd true ce L idx names fil ∧ d.line = i ∧ d.code = c) ↔
      ∃ k, k < L.length ∧ i = idx + k ∧ ∃ line, L[k]? = some line ∧ P line := by
  intro L
  induction L with
  | nil =>
    intro idx names fil i
    simp [analyzeDocLoop]
  | cons line rest ih =>
    intro idx names fil i
    rw [analyzeDocLoop_cons]
    constructor
    · rintro ⟨d, hd, hline, hcode⟩
      rw [List.mem_append, List.mem_append, List.mem_append] at hd
      rcases hd with ((h | h) | h) | h
      · exact absurd (hcode ▸ mem_docDupOf_code cd line idx names d h) hdup
      · obtain ⟨hP, hdq⟩ := (hseg line idx d).mp ⟨h, hcode⟩
        have hdl : d.line = idx := by rw [hdq]; rfl
        exact ⟨0, by simp, by omega, line, by simp, hP⟩
      · exact absurd (hcode ▸ mem_docEqOf_code ce line idx fil d h) heqc
      · obtain ⟨k, hk, hi, l', hl', hP⟩ :=
          (ih (idx + 1) (docDupDefs cd line idx names) (docStepFil line fil) i).mp
            ⟨d, h, hline, hcode⟩
        exact ⟨k + 1, by simp; omega, by omega, l', by simpa using hl', hP⟩
    · rintro ⟨k, hk, hi, l', hl', hP⟩
      cases k with
      | zero =>
        simp only [List.getElem?_cons_zero, Option.some.injEq] at hl'
        subst hl'
        refine ⟨createDiagnostic idx 0 (indentOf line).length c, ?_, by rw [hi]; rfl, rfl⟩
        rw [List.mem_append, List.mem_append, List.mem_append]
        exact Or.inl (Or.inl (Or.inr ((hseg line idx _).mpr ⟨hP, rfl⟩).1))
      | succ k =>
        simp only [List.getElem?_cons_succ] at hl'
        obtain ⟨d, hd, hline, hcode⟩ :=
          (ih (idx + 1) (docDupDefs cd line idx names) (docStepFil line fil) i).mpr
            ⟨k, by simp at hk; omega, by omega, l', hl', hP⟩
        refine ⟨d, ?_, hline, hcode⟩
        rw [List.mem_append]
        exact Or.inr hd

/-- **C8.** At every reachable (non-blank, non-comment) indented line before
the markup boundary: the batch analyzer emits a mixed-indentation warning
(rendered at the 1-based line `i + 1`) exactly when the leading run has both
a tab and a space, and an odd-indentation warning exactly when the number of
non-tab characters of the leading run is odd; and, for every setting of the
other two toggles, the interactive analyzer with the indentation check on
flags `indentationMixed` (resp. `indentationSpacing`) at 0-based line `i`
exactly when the batch analyzer warns there — the two rules agree line for
line. -/
theorem indentation_rules_batch_and_interactive (cd ce : Bool) (lines : List JSStr)
    (i : Nat) (line : JSStr)
    (hl : lines[i]? = some line) (hb : i < findHtmlStart lines)
    (hsk : ¬ skipLine line) (hin : indentOf line ≠ []) :
    (((⟨i + 1, BCode.mixedIndent⟩ : BWarn) ∈ analyzePerchance lines) ↔
      ((indentOf line).contains '\t' = true ∧ (indentOf line).contains ' ' = true)) ∧
    (((⟨i + 1, BCode.oddIndent⟩ : BWarn) ∈ analyzePerchance lines) ↔
      ((indentOf line).filter (fun c => !(c == '\t'))).length % 2 ≠ 0) ∧
    ((∃ d, d ∈ analyzeDocumentChecks cd true ce lines ∧ d.line = i ∧
        d.code = DCode.indentationMixed) ↔
      ((⟨i + 1, BCode.mixedIndent⟩ : BWarn) ∈ analyzePerchance lines)) ∧
    ((∃ d, d ∈ analyzeDocumentChecks cd true ce lines ∧ d.line = i ∧
        d.code = DCode.indentationSpacing) ↔
      ((⟨i + 1, BCode.oddIndent⟩ : BWarn) ∈ analyzePerchance lines)) := by
  have hlen : i < lines.length := by
    cases hg : lines[i]? with
    | none => rw [hg] at hl; exact absurd hl (by simp)
    | some l =>
      obtain ⟨hlt, -⟩ := List.getElem?_eq_some.mp hg
      exact hlt
  have htake : (lines.take (findHtmlStart lines))[i]? = some line := by
    rw [List.getElem?_take, if_pos hb]
    exact hl
  have hbatch : ∀ (c : BCode) (P : JSStr → Prop),
      (∀ (l' : JSStr) (idx m : Nat),
        ((⟨m, c⟩ : BWarn) ∈ indentWarnsOf l' idx) ↔ (P l' ∧ m = idx + 1)) →
      (∀ n, c ≠ BCode.duplicateList n) → c ≠ BCode.singleEquals →
      c ≠ BCode.listAfterHtml →
      (((⟨i + 1, c⟩ : BWarn) ∈ analyzePerchance lines) ↔ P line) := by
    intro c P hseg hdup heqc hhtml
    rw [analyzePerchance]
    simp only [List.mem_append]
    constructor
    · rintro (h | h)
      · obtain ⟨k, hk, hm, l', hl', hP⟩ :=
          (analyzeListLoop_indent_mem c P hseg hdup heqc _ 0 [] (i + 1)).mp h
        have hki : k = i := by omega
        subst hki
        rw [htake] at hl'
        cases hl'
        exact hP
      · exact absurd (afterHtmlScan_codes _ _ _ h) (by simpa using hhtml)
    · intro hP
      refine Or.inl ((analyzeListLoop_indent_mem c P hseg hdup heqc _ 0 [] (i + 1)).mpr
        ⟨i, ?_, by omega, line, htake, hP⟩)
      rw [List.length_take]
      omega
  have hdoc : ∀ (c : DCode) (P : JSStr → Prop),
      (∀ (l' : JSStr) (idx : Nat) (d : Diag),
        (d ∈ docIndentOf true l' idx ∧ d.code = c) ↔
          (P l' ∧ d = createDiagnostic idx 0 (indentOf l').length c)) →
      c ≠ DCode.duplicateListName → c ≠ DCode.ifElseSingleEquals →
      ((∃ d, d ∈ analyzeDocumentChecks cd true ce lines ∧ d.line = i ∧ d.code = c) ↔
        P line) := by
    intro c P hseg hdup heqc
    rw [analyzeDocumentChecks]
    rw [analyzeDocLoop_indent_mem c P cd ce hseg hdup heqc _ 0 [] none i]
    constructor
    · rintro ⟨k, hk, hi, l', hl', hP⟩
      have hki : k = i := by omega
      subst hki
      rw [htake] at hl'
      cases hl'
      exact hP
    · intro hP
      refine ⟨i, ?_, by omega, line, htake, hP⟩
      rw [List.length_take]
      omega
  have hbm := hbatch BCode.mixedIndent mixedIndentLine mem_indentWarnsOf_mixed
    (by intro n; simp) (by simp) (by simp)
  have hbo := hbatch BCode.oddIndent oddIndentLine mem_indentWarnsOf_odd
    (by intro n; simp) (by simp) (by simp)
  have hdm := hdoc DCode.indentationMixed mixedIndentLine mem_docIndentOf_mixed
    (by simp) (by simp)
  have hds := hdoc DCode.indentationSpacing oddIndentLine mem_docIndentOf_spacing
    (by simp) (by simp)
  refine ⟨?_, ?_, ?_, ?_⟩
  · exact hbm.trans ⟨fun h => h.2.2, fun h => ⟨hsk, hin, h⟩⟩
  · exact hbo.trans ⟨fun h => h.2.2, fun h => ⟨hsk, hin, h⟩⟩
  · exact hdm.trans hbm.symm
  · exact hds.trans hbo.symm

/-- Witness for C8 at the two-line document whose second line is indented by
a tab followed by a space: both rules fire there in both engines. -/
theorem indentation_rules_batch_and_interactive_witness :
    (((⟨1 + 1, BCode.mixedIndent⟩ : BWarn) ∈ analyzePerchance [str "a", str "\t b"]) ↔
      ((indentOf (str "\t b")).contains '\t' = true ∧
        (indentOf (str "\t b")).contains ' ' = true)) ∧
    (((⟨1 + 1, BCode.oddIndent⟩ : BWarn) ∈ analyzePerchance [str "a", str "\t b"]) ↔
      ((indentOf (str "\t b")).filter (fun c => !(c == '\t'))).length % 2 ≠ 0) ∧
    ((∃ d, d ∈ analyzeDocumentChecks true true true [str "a", str "\t b"] ∧
        d.line = 1 ∧ d.code = DCode.indentationMixed) ↔
      ((⟨1 + 1, BCode.mixedIndent⟩ : BWarn) ∈ analyzePerchance [str "a", str "\t b"])) ∧
    ((∃ d, d ∈ analyzeDocumentChecks true true true [str "a", str "\t b"] ∧
        d.line = 1 ∧ d.code = DCode.indentationSpacing) ↔
      ((⟨1 + 1, BCode.oddIndent⟩ : BWarn) ∈ analyzePerchance [str "a", str "\t b"])) :=
  indentation_rules_batch_and_interactive true true [str "a", str "\t b"] 1 (str "\t b")
    (by decide) (by decide) (by decide) (by decide)

/-! ### C10: the list-after-html rule -/

lemma mem_indentWarnsOf_shape (line : JSStr) (idx : Nat) (w : BWarn)
    (h : w ∈ indentWarnsOf line idx) :
    w.code = BCode.mixedIndent ∨ w.code = BCode.oddIndent := by
  unfold indentWarnsOf at h
  split at h
  · simp at h
  · split at h
    · simp at h
    · rw [List.mem_append] at h
      rcases h with h | h
      · split at h
        · simp only [List.mem_singleton] at h
          exact Or.inl (by rw [h])
        · simp at h
      · split at h
        · simp only [List.mem_singleton] at h
          exact Or.inr (by rw [h])
        · simp at h

lemma analyzeListLoop_no_html : ∀ (L : List JSStr) (idx : Nat)
    (defs : List (JSStr × Nat)) (m : Nat),
    (⟨m, BCode.listAfterHtml⟩ : BWarn) ∉ (analyzeListLoop L idx defs).1 := by
  intro L
  induction L with
  | nil =>
    intro idx defs m
    simp [analyzeListLoop]
  | cons line rest ih =>
    intro idx defs m
    rw [analyzeListLoop_cons]
    intro h
    simp only [List.mem_append] at h
    rcases h with ((h | h) | h) | h
    · obtain ⟨n, hn⟩ := mem_dupWarnOf_shape line idx defs _ h
      have hc : BCode.listAfterHtml = BCode.duplicateList n := congrArg BWarn.code hn
      simp at hc
    · rcases mem_indentWarnsOf_shape line idx _ h with hc | hc <;> simp at hc
    · have hc : BCode.listAfterHtml = BCode.singleEquals :=
        congrArg BWarn.code (mem_eqWarnsOf_shape line idx _ h)
      simp at hc
    · exact ih (idx + 1) (dupStepDefs line idx defs) m h

/-- A line qualifies for the list-after-html rule: after trimming it is
non-blank, does not start with an HTML comment opener, and has a
list-header shape. -/
def htmlQualifies (line : JSStr) : Prop :=
  ¬ (jsTrim line = [] ∨ startsW (str "<!--") (jsTrim line) = true) ∧
  isListHeaderLine (jsTrim line) = true

instance (line : JSStr) : Decidable (htmlQualifies line) := by
  unfold htmlQualifies
  exact inferInstance

/-- The relative index of the first qualifying line of a list of lines. -/
def firstQual : List JSStr → Option Nat
  | [] => none
  | line :: rest =>
    if htmlQualifies line then some 0 else (firstQual rest).map (· + 1)

lemma afterHtmlScan_eq : ∀ (L : List JSStr) (idx : Nat),
    afterHtmlScan L idx =
      match firstQual L with
      | some k => [⟨idx + k + 1, BCode.listAfterHtml⟩]
      | none => [] := by
  intro L
  induction L with
  | nil => intro idx; rfl
  | cons line rest ih =>
    intro idx
    rw [afterHtmlScan, firstQual]
    by_cases hq : htmlQualifies line
    · obtain ⟨hns, hh⟩ := hq
      rw [if_neg hns, if_pos hh, if_pos ⟨hns, hh⟩]
    · rw [if_neg hq]
      by_cases hns : jsTrim line = [] ∨ startsW (str "<!--") (jsTrim line) = true
      · rw [if_pos hns, ih]
        cases hf : firstQual rest with
        | none => simp
        | some k =>
          simp only [Option.map_some']
          rw [show idx + 1 + k + 1 = idx + (k + 1) + 1 from by omega]
      · rw [if_neg hns]
        rw [if_neg (by
          intro hh
          exact hq ⟨hns, hh⟩)]
        rw [ih]
        cases hf : firstQual rest with
        | none => simp
        | some k =>
          simp only [Option.map_some']
          rw [show idx + 1 + k + 1 = idx + (k + 1) + 1 from by omega]

lemma firstQual_eq_some_iff : ∀ (L : List JSStr) (k : Nat),
    firstQual L = some k ↔
      ((∃ line, L[k]? = some line ∧ htmlQualifies line) ∧
        ∀ j, j < k → ¬ ∃ line, L[j]? = some line ∧ htmlQualifies line) := by
  intro L
  induction L with
  | nil =>
    intro k
    simp [firstQual]
  | cons line rest ih =>
    intro k
    rw [firstQual]
    by_cases hq : htmlQualifies line
    · rw [if_pos hq]
      constructor
      · intro h
        rw [Option.some.injEq] at h
        subst h
        exact ⟨⟨line, by simp, hq⟩, fun j hj => by omega⟩
      · rintro ⟨⟨l', hl', hql⟩, hfirst⟩
        cases k with
        | zero => rfl
        | succ k => exact absurd ⟨line, by simp, hq⟩ (hfirst 0 (by omega))
    · rw [if_neg hq]
      constructor
      · intro h
        rw [Option.map_eq_some'] at h
        obtain ⟨k', hk', hkk⟩ := h
        subst hkk
        obtain ⟨⟨l', hl', hql⟩, hfirst⟩ := (ih k').mp hk'
        refine ⟨⟨l', by simpa using hl', hql⟩, ?_⟩
        intro j hj
        cases j with
        | zero =>
          rintro ⟨l2, hl2, hq2⟩
          simp only [List.getElem?_cons_zero, Option.some.injEq] at hl2
          subst hl2
          exact hq hq2
        | succ j =>
          rintro ⟨l2, hl2, hq2⟩
          simp only [List.getElem?_cons_succ] at hl2
          exact hfirst j (by omega) ⟨l2, hl2, hq2⟩
      · rintro ⟨⟨l', hl', hql⟩, hfirst⟩
        cases k with
        | zero =>
          simp only [List.getElem?_cons_zero, Option.some.injEq] at hl'
          subst hl'
          exact absurd hql hq
        | succ k =>
          simp only [List.getElem?_cons_succ] at hl'
          rw [(ih k).mpr ⟨⟨l', hl', hql⟩, ?_⟩]
          · rfl
          · intro j hj
            rintro ⟨l2, hl2, hq2⟩
            exact hfirst (j + 1) (by omega) ⟨l2, by simpa using hl2, hq2⟩

lemma firstQual_eq_none_iff : ∀ (L : List JSStr),
    firstQual L = none ↔
      ∀ (k : Nat), ¬ ∃ line, L[k]? = some line ∧ htmlQualifies line := by
  intro L
  induction L with
  | nil =>
    simp [firstQual]
  | cons line rest ih =>
    rw [firstQual]
    by_cases hq : htmlQualifies line
    · rw [if_pos hq]
      simp only [reduceCtorEq, false_iff, not_forall]
      push_neg
      exact ⟨0, line, by simp, hq⟩
    · rw [if_neg hq]
      rw [Option.map_eq_none']
      rw [ih]
      constructor
      · intro h k
        cases k with
        | zero =>
          rintro ⟨l2, hl2, hq2⟩
          simp only [List.getElem?_cons_zero, Option.some.injEq] at hl2
          subst hl2
          exact hq hq2
        | succ k =>
          rintro ⟨l2, hl2, hq2⟩
          simp only [List.getElem?_cons_succ] at hl2
          exact h k ⟨l2, hl2, hq2⟩
      · intro h k
        rintro ⟨l2, hl2, hq2⟩
        exact h (k + 1) ⟨l2, by simpa using hl2, hq2⟩

/-- **C10.** The batch analyzer emits at most one `list-after-html` warning;
a warning with that code exists at rendered line `m` exactly when `m = k + 1`
for the first line `k` at or after the markup boundary whose trimmed text is
non-blank, does not open an HTML comment, and has a list-header shape — so
the rule fires only once, at the first qualifying line, and never when no
qualifying line exists. -/
theorem listAfterHtml_at_most_one_at_first_qualifying (lines : List JSStr) :
    ((analyzePerchance lines).filter
        (fun w => w.code == BCode.listAfterHtml)).length ≤ 1 ∧
    (∀ (m : Nat), ((⟨m, BCode.listAfterHtml⟩ : BWarn) ∈ analyzePerchance lines) ↔
      ∃ (k : Nat), m = k + 1 ∧ findHtmlStart lines ≤ k ∧
        (∃ line, lines[k]? = some line ∧ htmlQualifies line) ∧
        ∀ (j : Nat), findHtmlStart lines ≤ j → j < k →
          ¬ ∃ line, lines[j]? = some line ∧ htmlQualifies line) := by
  have hsplit : analyzePerchance lines =
      (analyzeListLoop (lines.take (findHtmlStart lines)) 0 []).1 ++
        afterHtmlScan (lines.drop (findHtmlStart lines)) (findHtmlStart lines) := rfl
  constructor
  · rw [hsplit, List.filter_append]
    rw [show ((analyzeListLoop (lines.take (findHtmlStart lines)) 0 []).1.filter
        (fun w => w.code == BCode.listAfterHtml)) = [] from by
      rw [List.filter_eq_nil_iff]
      intro w hw
      obtain ⟨ml, mc⟩ := w
      simp only [beq_iff_eq]
      intro hc
      have hc2 : mc = BCode.listAfterHtml := hc
      subst hc2
      exact absurd hw (analyzeListLoop_no_html _ 0 [] ml)]
    rw [afterHtmlScan_eq]
    cases firstQual (lines.drop (findHtmlStart lines)) with
    | none => simp
    | some k => simp
  · intro m
    rw [hsplit, List.mem_append]
    constructor
    · rintro (h | h)
      · exact absurd h (analyzeListLoop_no_html _ 0 [] m)
      · rw [afterHtmlScan_eq] at h
        cases hf : firstQual (lines.drop (findHtmlStart lines)) with
        | none => rw [hf] at h; simp at h
        | some k0 =>
          rw [hf] at h
          simp only [List.mem_singleton, BWarn.mk.injEq] at h
          obtain ⟨hm, -⟩ := h
          obtain ⟨⟨l', hl', hql⟩, hfirst⟩ := (firstQual_eq_some_iff _ k0).mp hf
          refine ⟨findHtmlStart lines + k0, by omega, by omega, ⟨l', ?_, hql⟩, ?_⟩
          · rw [List.getElem?_drop] at hl'
            exact hl'
          · intro j hj1 hj2
            rintro ⟨l2, hl2, hq2⟩
            refine hfirst (j - findHtmlStart lines) (by omega) ⟨l2, ?_, hq2⟩
            rw [List.getElem?_drop,
              show findHtmlStart lines + (j - findHtmlStart lines) = j from by omega]
            exact hl2
    · rintro ⟨k, hm, hk, ⟨l', hl', hql⟩, hfirst⟩
      refine Or.inr ?_
      rw [afterHtmlScan_eq]
      have hq' : firstQual (lines.drop (findHtmlStart lines)) =
          some (k - findHtmlStart lines) := by
        rw [firstQual_eq_some_iff]
        refine ⟨⟨l', ?_, hql⟩, ?_⟩
        · rw [List.getElem?_drop,
            show findHtmlStart lines + (k - findHtmlStart lines) = k from by omega]
          exact hl'
        · intro j hj
          rintro ⟨l2, hl2, hq2⟩
          rw [List.getElem?_drop] at hl2
          exact hfirst (findHtmlStart lines + j) (by omega) (by omega) ⟨l2, hl2, hq2⟩
      rw [hq']
      simp only [List.mem_singleton, BWarn.mk.injEq]
      exact ⟨by omega, trivial⟩

/-! ## C9: the single-equals quick fix (`replaceSingleEqualsInIfElse` and
`replaceFirstSingleEquals`, copilot copy lines 1197–1235) -/

/-- The loop of `replaceFirstSingleEquals(text, replacement)`, carrying the
previous character as in `hasSingleEquals`: at the first `=` whose
neighbours disqualify none of the rules it returns
`text.slice(0, i) + replacement + text.slice(i + 1)`; reaching the end it
returns `null`. -/
def replaceFirstSingleEqualsAux (repl : JSStr) : Option Char → JSStr → Option JSStr
  | _, [] => none
  | prev, c :: rest =>
    if c = '=' then
      if badPrevB prev || badNextB rest.head? then
        (replaceFirstSingleEqualsAux repl (some c) rest).map (fun r => c :: r)
      else some (repl ++ rest)
    else (replaceFirstSingleEqualsAux repl (some c) rest).map (fun r => c :: r)

/-- `replaceFirstSingleEquals(text, replacement)`. -/
def replaceFirstSingleEquals (text repl : JSStr) : Option JSStr :=
  replaceFirstSingleEqualsAux repl none text

/-- The content of a bracket pair can match `[^\]]+\?[^\]]+:[^\]]+`: some
`?` at position `i ≥ 1`, some `:` at position `j ≥ i + 2`, and at least one
character after the `:` (all characters of the content are non-`]` because
the content is cut at the first `]`). -/
def ternarySplittable (b : JSStr) : Prop :=
  ∃ i, i < b.length ∧ ∃ j, j < b.length ∧
    b[i]? = some '?' ∧ b[j]? = some ':' ∧ 1 ≤ i ∧ i + 2 ≤ j ∧ j + 2 ≤ b.length

instance (b : JSStr) : Decidable (ternarySplittable b) := by
  unfold ternarySplittable
  exact inferInstance

/-- The leftmost match of `/\[([^\]]+\?[^\]]+:[^\]]+)\]/` in
`lineText.match(...)`, as `(prefix, content, suffix)` with
`lineText = prefix ++ "[" ++ content ++ "]" ++ suffix`.  A match starting at
a `[` must close at the first `]` after it (the content characters all avoid
`]`), so at each `[` the candidate content is the run up to the first `]`,
and it matches when it is nonempty and ternary-splittable; otherwise the
regex engine retries from the next character.  The fuel only ever needs the
text's length. -/
def findFixMatchF : Nat → JSStr → Option (JSStr × JSStr × JSStr)
  | 0, _ => none
  | _ + 1, [] => none
  | fuel + 1, c :: rest =>
    if c = '[' then
      match firstIdx (fun x => x = ']') rest with
      | some k =>
        if k ≠ 0 ∧ ternarySplittable (rest.take k) then
          some ([], rest.take k, rest.drop (k + 1))
        else (findFixMatchF fuel rest).map (fun m => (c :: m.1, m.2))
      | none => (findFixMatchF fuel rest).map (fun m => (c :: m.1, m.2))
    else (findFixMatchF fuel rest).map (fun m => (c :: m.1, m.2))

/-- The regex match of `replaceSingleEqualsInIfElse`. -/
def findFixMatch (t : JSStr) : Option (JSStr × JSStr × JSStr) :=
  findFixMatchF t.length t

/-- ECMAScript GetSubstitution for a string replacement used with a string
search pattern (so there are no capture groups and no named captures): a
dollar followed by a dollar yields one dollar, `$&` yields the matched
substring, a dollar followed by a backquote yields the text before the
match, a dollar followed by an apostrophe yields the text after the match,
and any other dollar is copied literally. -/
def getSubstitution (matched before after : JSStr) : JSStr → JSStr
  | [] => []
  | '$' :: c :: rest =>
    if c = '$' then '$' :: getSubstitution matched before after rest
    else if c = '&' then matched ++ getSubstitution matched before after rest
    else if c = Char.ofNat 96 then before ++ getSubstitution matched before after rest
    else if c = Char.ofNat 39 then after ++ getSubstitution matched before after rest
    else '$' :: getSubstitution matched before after (c :: rest)
  | c :: rest => c :: getSubstitution matched before after rest

/-- `replaceSingleEqualsInIfElse(lineText)`: on a regex match, take the
block's part before the first `?` as the condition, replace its first
single `=` by `==`, and re-assemble.  `lineText.replace(match[0], ...)`
replaces the first occurrence of the matched substring, which is the match
site itself: an occurrence of `"[" ++ block ++ "]"` starting earlier would
make the regex match there instead, because `block` is `]`-free and
followed by `]`, hence is also the first-`]` run of that earlier `[`.
Because the replacement argument is a plain string, `replace` runs it
through GetSubstitution with the matched text and the surrounding prefix
and suffix — dollar patterns inside the rebuilt block are expanded, they
are not spliced literally. -/
def replaceSingleEqualsInIfElse (lineText : JSStr) : Option JSStr :=
  match findFixMatch lineText with
  | none => none
  | some (pre, block, post) =>
    match firstIdx (fun x => x = '?') block with
    | none => none
    | some q =>
      match replaceFirstSingleEquals (block.take q) (str "==") with
      | none => none
      | some conditionFixed =>
        some (pre ++
          getSubstitution ('[' :: block ++ [']']) pre post
            ('[' :: (conditionFixed ++ block.drop q) ++ [']']) ++
          post)

/-- The qualifying condition of the scans with explicit incoming previous
character. -/
def qualPrev (prev : Option Char) (t : JSStr) (i : Nat) : Prop :=
  t[i]? = some '=' ∧ badPrevB (prevOpt prev t i) = false ∧
  badNextB t[i + 1]? = false

lemma qualPrev_cons_zero (prev : Option Char) (c : Char) (rest : JSStr) :
    qualPrev prev (c :: rest) 0 ↔
      (c = '=' ∧ badPrevB prev = false ∧ badNextB rest.head? = false) := by
  unfold qualPrev
  rw [show (0 : Nat) + 1 = 1 from rfl, getElem?_cons_one]
  simp [prevOpt]

lemma qualPrev_cons_succ (prev : Option Char) (c : Char) (rest : JSStr) (i : Nat) :
    qualPrev prev (c :: rest) (i + 1) ↔ qualPrev (some c) rest i := by
  unfold qualPrev
  rw [prevOpt_shift]
  simp

lemma qualPrev_none_iff_qualifiesAt (t : JSStr) (i : Nat) :
    qualPrev none t i ↔ qualifiesAt t i := by
  unfold qualPrev qualifiesAt prevOpt
  rcases Nat.eq_zero_or_pos i with h0 | hpos
  · subst h0
    simp [badPrevB]
  · rw [if_neg (by omega)]
    constructor
    · rintro ⟨h1, h2, h3⟩
      exact ⟨h1, Or.inr h2, h3⟩
    · rintro ⟨h1, h2, h3⟩
      refine ⟨h1, ?_, h3⟩
      rcases h2 with h0 | h
      · omega
      · exact h

lemma replaceFirstSingleEqualsAux_some_iff (repl : JSStr) :
    ∀ (t : JSStr) (prev : Option Char) (out : JSStr),
    replaceFirstSingleEqualsAux repl prev t = some out ↔
      ∃ i, qualPrev prev t i ∧ (∀ j, j < i → ¬ qualPrev prev t j) ∧
        out = t.take i ++ repl ++ t.drop (i + 1) := by
  intro t
  induction t with
  | nil =>
    intro prev out
    simp [replaceFirstSingleEqualsAux, qualPrev]
  | cons c rest ih =>
    intro prev out
    by_cases hc : c = '='
    · by_cases hskip : (badPrevB prev || badNextB rest.head?) = true
      · have hq0 : ¬ qualPrev prev (c :: rest) 0 := by
          rw [qualPrev_cons_zero]
          rintro ⟨-, h2, h3⟩
          rw [Bool.or_eq_true] at hskip
          rcases hskip with hb | hb
          · rw [hb] at h2; simp at h2
          · rw [hb] at h3; simp at h3
        have hunf : replaceFirstSingleEqualsAux repl prev (c :: rest) =
            (replaceFirstSingleEqualsAux repl (some c) rest).map (fun r => c :: r) := by
          subst hc
          simp [replaceFirstSingleEqualsAux, hskip]
        rw [hunf, Option.map_eq_some']
        constructor
        · rintro ⟨out', hout', rfl⟩
          obtain ⟨i, h1, h2, h3⟩ := (ih (some c) out').mp hout'
          refine ⟨i + 1, (qualPrev_cons_succ prev c rest i).mpr h1, ?_, ?_⟩
          · intro j hj
            cases j with
            | zero => exact hq0
            | succ j =>
              rw [qualPrev_cons_succ]
              exact h2 j (by omega)
          · rw [h3]
            simp
        · rintro ⟨i, h1, h2, h3⟩
          cases i with
          | zero => exact absurd h1 hq0
          | succ i =>
            refine ⟨rest.take i ++ repl ++ rest.drop (i + 1), ?_, ?_⟩
            · refine (ih (some c) _).mpr ⟨i, (qualPrev_cons_succ prev c rest i).mp h1, ?_, rfl⟩
              intro j hj
              rw [← qualPrev_cons_succ prev]
              exact h2 (j + 1) (by omega)
            · rw [h3]
              simp
      · have hq0 : qualPrev prev (c :: rest) 0 := by
          rw [qualPrev_cons_zero]
          rw [Bool.not_eq_true, Bool.or_eq_false_iff] at hskip
          exact ⟨hc, hskip.1, hskip.2⟩
        have hunf : replaceFirstSingleEqualsAux repl prev (c :: rest) =
            some (repl ++ rest) := by
          subst hc
          simp [replaceFirstSingleEqualsAux, hskip]
        rw [hunf, Option.some.injEq]
        constructor
        · intro h
          exact ⟨0, hq0, fun j hj => by omega, by simpa using h.symm⟩
        · rintro ⟨i, h1, h2, h3⟩
          cases i with
          | zero =>
            rw [h3]
            simp
          | succ i => exact absurd hq0 (h2 0 (by omega))
    · have hq0 : ¬ qualPrev prev (c :: rest) 0 := by
        rw [qualPrev_cons_zero]
        rintro ⟨h1, -⟩
        exact hc h1
      have hunf : replaceFirstSingleEqualsAux repl prev (c :: rest) =
          (replaceFirstSingleEqualsAux repl (some c) rest).map (fun r => c :: r) := by
        simp [replaceFirstSingleEqualsAux, hc]
      rw [hunf, Option.map_eq_some']
      constructor
      · rintro ⟨out', hout', rfl⟩
        obtain ⟨i, h1, h2, h3⟩ := (ih (some c) out').mp hout'
        refine ⟨i + 1, (qualPrev_cons_succ prev c rest i).mpr h1, ?_, ?_⟩
        · intro j hj
          cases j with
          | zero => exact hq0
          | succ j =>
            rw [qualPrev_cons_succ]
            exact h2 j (by omega)
        · rw [h3]
          simp
      · rintro ⟨i, h1, h2, h3⟩
        cases i with
        | zero => exact absurd h1 hq0
        | succ i =>
          refine ⟨rest.take i ++ repl ++ rest.drop (i + 1), ?_, ?_⟩
          · refine (ih (some c) _).mpr ⟨i, (qualPrev_cons_succ prev c rest i).mp h1, ?_, rfl⟩
            intro j hj
            rw [← qualPrev_cons_succ prev]
            exact h2 (j + 1) (by omega)
          · rw [h3]
            simp

lemma replaceFirstSingleEquals_some_iff (text repl out : JSStr) :
    replaceFirstSingleEquals text repl = some out ↔
      ∃ i, qualifiesAt text i ∧ (∀ j, j < i → ¬ qualifiesAt text j) ∧
        out = text.take i ++ repl ++ text.drop (i + 1) := by
  rw [replaceFirstSingleEquals, replaceFirstSingleEqualsAux_some_iff]
  apply exists_congr
  intro i
  rw [qualPrev_none_iff_qualifiesAt]
  constructor
  · rintro ⟨h1, h2, h3⟩
    exact ⟨h1, fun j hj hq => h2 j hj ((qualPrev_none_iff_qualifiesAt text j).mpr hq), h3⟩
  · rintro ⟨h1, h2, h3⟩
    exact ⟨h1, fun j hj hq => h2 j hj ((qualPrev_none_iff_qualifiesAt text j).mp hq), h3⟩

lemma firstIdx_split (p : Char → Bool) (l : List Char) (k : Nat)
    (h : firstIdx p l = some k) :
    k < l.length ∧ ∃ x, p x = true ∧ l = l.take k ++ x :: l.drop (k + 1) := by
  obtain ⟨x, hx, hp⟩ := firstIdx_eq_some_sat p l k h
  obtain ⟨hk, hget⟩ := List.getElem?_eq_some.mp hx
  refine ⟨hk, x, hp, ?_⟩
  conv_lhs => rw [← List.take_append_drop k l]
  rw [List.drop_eq_getElem_cons hk, hget]

lemma findFixMatchF_map_shift {fuel : Nat} {rest : JSStr} {c : Char}
    {pre block post : JSStr}
    (ih : ∀ pre block post, findFixMatchF fuel rest = some (pre, block, post) →
      rest = pre ++ '[' :: block ++ ']' :: post ∧ block ≠ [] ∧
        ternarySplittable block)
    (h : (findFixMatchF fuel rest).map (fun m => (c :: m.1, m.2)) =
      some (pre, block, post)) :
    c :: rest = pre ++ '[' :: block ++ ']' :: post ∧ block ≠ [] ∧
      ternarySplittable block := by
  rw [Option.map_eq_some'] at h
  obtain ⟨⟨p1, p2, p3⟩, hm, heq⟩ := h
  simp only [Prod.mk.injEq] at heq
  obtain ⟨h1, h2, h3⟩ := heq
  subst h1
  subst h2
  subst h3
  obtain ⟨hd, hne, hts⟩ := ih p1 p2 p3 hm
  refine ⟨?_, hne, hts⟩
  rw [hd]
  simp

lemma findFixMatchF_some : ∀ (fuel : Nat) (t : JSStr) (pre block post : JSStr),
    findFixMatchF fuel t = some (pre, block, post) →
      t = pre ++ '[' :: block ++ ']' :: post ∧ block ≠ [] ∧
        ternarySplittable block := by
  intro fuel
  induction fuel with
  | zero =>
    intro t pre block post h
    simp [findFixMatchF] at h
  | succ fuel ih =>
    intro t pre block post h
    cases t with
    | nil => simp [findFixMatchF] at h
    | cons c rest =>
      rw [findFixMatchF] at h
      by_cases hc : c = '['
      · rw [if_pos hc] at h
        cases hk : firstIdx (fun x => x = ']') rest with
        | some k =>
          simp only [hk] at h
          by_cases hcond : k ≠ 0 ∧ ternarySplittable (rest.take k)
          · rw [if_pos hcond] at h
            obtain ⟨hk0, hts⟩ := hcond
            rw [Option.some.injEq, Prod.mk.injEq, Prod.mk.injEq] at h
            obtain ⟨h1, h2, h3⟩ := h
            subst h1
            subst h2
            subst h3
            obtain ⟨hklen, x, hx, hsplit⟩ := firstIdx_split _ rest k hk
            rw [decide_eq_true_iff] at hx
            subst hx
            refine ⟨?_, ?_, hts⟩
            · rw [List.nil_append, hc, List.cons_append, ← hsplit]
            · intro hnil
              have hlen := congrArg List.length hnil
              rw [List.length_take] at hlen
              simp only [List.length_nil] at hlen
              omega
          · rw [if_neg hcond] at h
            exact findFixMatchF_map_shift (fun a b c' h' => ih rest a b c' h') h
        | none =>
          simp only [hk] at h
          exact findFixMatchF_map_shift (fun a b c' h' => ih rest a b c' h') h
      · rw [if_neg hc] at h
        exact findFixMatchF_map_shift (fun a b c' h' => ih rest a b c' h') h

lemma replaceFirstSingleEquals_none_iff (text repl : JSStr) :
    replaceFirstSingleEquals text repl = none ↔ ¬ ∃ i, qualifiesAt text i := by
  constructor
  · intro h hq
    have hmin := Nat.find_spec hq
    have hout : replaceFirstSingleEquals text repl =
        some (text.take (Nat.find hq) ++ repl ++ text.drop (Nat.find hq + 1)) := by
      rw [replaceFirstSingleEquals_some_iff]
      exact ⟨Nat.find hq, hmin, fun j hj => Nat.find_min hq hj, rfl⟩
    rw [h] at hout
    exact absurd hout (by simp)
  · intro h
    cases hr : replaceFirstSingleEquals text repl with
    | none => rfl
    | some out =>
      obtain ⟨i, hq, -, -⟩ := (replaceFirstSingleEquals_some_iff text repl out).mp hr
      exact absurd ⟨i, hq⟩ h

lemma ternarySplittable_has_question {block : JSStr} (h : ternarySplittable block) :
    ∃ q, firstIdx (fun x => x = '?') block = some q := by
  obtain ⟨i, hi, j, hj, hqi, -⟩ := h
  have hmem : '?' ∈ block := List.getElem?_mem hqi
  exact firstIdx_isSome_of_mem hmem (by decide)

/-- `replaceSingleEqualsInIfElse` either rewrites or declines: when it
returns a line, the input decomposes around the leftmost bracketed ternary
span as `pre ++ "[" ++ block ++ "]" ++ post`, the first `=` of the block's
part before its first `?` that qualifies under the detection rule (not
next to `=`, not preceded by `!`, `>`, `<`, not followed by `>`) is
replaced by `==`, and the rebuilt span goes through the replacement's
GetSubstitution before being spliced between the unchanged `pre` and
`post`; it returns `null` exactly when no such span exists or the part
before the `?` has no qualifying `=`. -/
theorem replaceSingleEqualsInIfElse_spec (t : JSStr) :
    (∀ out, replaceSingleEqualsInIfElse t = some out →
      ∃ pre block post q i,
        findFixMatch t = some (pre, block, post) ∧
        t = pre ++ '[' :: block ++ ']' :: post ∧
        firstIdx (fun x => x = '?') block = some q ∧
        qualifiesAt (block.take q) i ∧
        (∀ j, j < i → ¬ qualifiesAt (block.take q) j) ∧
        out = pre ++ getSubstitution ('[' :: block ++ [']']) pre post
          ('[' :: (((block.take q).take i ++ str "==" ++
            (block.take q).drop (i + 1)) ++ block.drop q) ++ [']']) ++ post) ∧
    (replaceSingleEqualsInIfElse t = none ↔
      (findFixMatch t = none ∨
        ∃ pre block post q, findFixMatch t = some (pre, block, post) ∧
          firstIdx (fun x => x = '?') block = some q ∧
          ¬ ∃ i, qualifiesAt (block.take q) i)) := by
  constructor
  · intro out h
    cases hf : findFixMatch t with
    | none => simp [replaceSingleEqualsInIfElse, hf] at h
    | some m =>
      obtain ⟨pre, block, post⟩ := m
      obtain ⟨hdec, -, hts⟩ := findFixMatchF_some t.length t pre block post hf
      simp only [replaceSingleEqualsInIfElse, hf] at h
      cases hq : firstIdx (fun x => x = '?') block with
      | none => simp [hq] at h
      | some q =>
        simp only [hq] at h
        cases hr : replaceFirstSingleEquals (block.take q) (str "==") with
        | none => simp [hr] at h
        | some cf =>
          simp only [hr, Option.some.injEq] at h
          obtain ⟨i, hqual, hmin, hcf⟩ :=
            (replaceFirstSingleEquals_some_iff (block.take q) (str "==") cf).mp hr
          refine ⟨pre, block, post, q, i, rfl, hdec, hq, hqual, hmin, ?_⟩
          rw [← h, hcf]
  · constructor
    · intro h
      cases hf : findFixMatch t with
      | none => exact Or.inl rfl
      | some m =>
        obtain ⟨pre, block, post⟩ := m
        obtain ⟨-, -, hts⟩ := findFixMatchF_some t.length t pre block post hf
        obtain ⟨q, hq⟩ := ternarySplittable_has_question hts
        simp only [replaceSingleEqualsInIfElse, hf, hq] at h
        cases hr : replaceFirstSingleEquals (block.take q) (str "==") with
        | none =>
          refine Or.inr ⟨pre, block, post, q, rfl, hq, ?_⟩
          rw [← replaceFirstSingleEquals_none_iff (block.take q) (str "==")]
          exact hr
        | some cf => simp [hr] at h
    · intro h
      rcases h with h | ⟨pre, block, post, q, hf, hq, hnone⟩
      · simp [replaceSingleEqualsInIfElse, h]
      · simp only [replaceSingleEqualsInIfElse, hf, hq]
        rw [(replaceFirstSingleEquals_none_iff (block.take q) (str "==")).mpr hnone]

/-- **C9 (code bug).** The claim — and the spec — say the fix returns the
line with only the first qualifying `=` of the condition rewritten to
`==`, the rest of the line unchanged.  But the copilot copy builds the
result with `lineText.replace(match[0], ...)` whose string replacement
undergoes GetSubstitution: dollar patterns inside the rewritten block are
expanded, so on `[x = 1 ? $& : y]` the program returns
`[x == 1 ? [x = 1 ? $& : y] : y]` — `$&` splices the whole original match
into the span — instead of the claimed span-only rewrite
`[x == 1 ? $& : y]`; on dollar-free lines the claimed behaviour holds. -/
theorem replaceSingleEqualsInIfElse_dollar_bug :
    replaceSingleEqualsInIfElse (str "[x = 1 ? $& : y]") =
      some (str "[x == 1 ? [x = 1 ? $& : y] : y]") ∧
    some (str "[x == 1 ? $& : y]") ≠
      some (str "[x == 1 ? [x = 1 ? $& : y] : y]") ∧
    replaceSingleEqualsInIfElse (str "[x = 1 ? a : b]") =
      some (str "[x == 1 ? a : b]") := by
  refine ⟨by decide, by decide, by decide⟩

lemma mem_docIndentOf_code (ci : Bool) (line : JSStr) (idx : Nat) (d : Diag)
    (h : d ∈ docIndentOf ci line idx) :
    d.code = DCode.indentationMixed ∨ d.code = DCode.indentationSpacing := by
  unfold docIndentOf at h
  split at h
  · simp at h
  · split at h
    · rw [List.mem_append] at h
      rcases h with h | h
      · split at h
        · simp only [List.mem_singleton] at h
          exact Or.inl (by rw [h]; rfl)
        · simp at h
      · split at h
        · simp only [List.mem_singleton] at h
          exact Or.inr (by rw [h]; rfl)
        · simp at h
    · simp at h

lemma mem_docDupOf_shape (cd : Bool) (line : JSStr) (idx : Nat)
    (names : List (JSStr × Nat)) (d : Diag) (h : d ∈ docDupOf cd line idx names) :
    ∃ nm, parseListName (jsTrim (stripComment (line.drop (indentOf line).length))) =
        some nm ∧
      d = createDiagnostic idx 0 nm.length DCode.duplicateListName := by
  unfold docDupOf at h
  split at h
  · simp at h
  · split at h
    · split at h
      next nm heq =>
        split at h
        · simp only [List.mem_singleton] at h
          exact ⟨nm, heq, h⟩
        · simp at h
      next heq => simp at h
    · simp at h

lemma analyzeDocLoop_dup_shape (cd ci ce : Bool) : ∀ (L : List JSStr) (idx : Nat)
    (names : List (JSStr × Nat)) (fil : Option Nat) (d : Diag),
    d ∈ analyzeDocLoop cd ci ce L idx names fil →
    d.code = DCode.duplicateListName →
    ∃ line nm, idx ≤ d.line ∧ L[d.line - idx]? = some line ∧
      parseListName (jsTrim (stripComment (line.drop (indentOf line).length))) =
        some nm ∧
      d.colStart = 0 ∧ d.colEnd = max 1 nm.length := by
  intro L
  induction L with
  | nil =>
    intro idx names fil d h hc
    simp [analyzeDocLoop] at h
  | cons line rest ih =>
    intro idx names fil d h hc
    rw [analyzeDocLoop_cons] at h
    rw [List.mem_append, List.mem_append, List.mem_append] at h
    rcases h with ((h | h) | h) | h
    · obtain ⟨nm, hp, hd⟩ := mem_docDupOf_shape cd line idx names d h
      subst hd
      refine ⟨line, nm, Nat.le_refl idx, ?_, hp, rfl, rfl⟩
      show (line :: rest)[idx - idx]? = some line
      rw [Nat.sub_self]
      simp
    · rcases mem_docIndentOf_code ci line idx d h with hcc | hcc <;>
        · rw [hc] at hcc
          simp at hcc
    · have hcc := mem_docEqOf_code ce line idx fil d h
      rw [hc] at hcc
      simp at hcc
    · obtain ⟨l', nm, hle, hget, hp, h0, hE⟩ :=
        ih (idx + 1) (docDupDefs cd line idx names) (docStepFil line fil) d h hc
      refine ⟨l', nm, by omega, ?_, hp, h0, hE⟩
      rw [show d.line - idx = (d.line - (idx + 1)) + 1 from by omega,
        List.getElem?_cons_succ]
      exact hget

/-- **C6.** While scanning the lines before the markup boundary, the batch
duplicate rule emits exactly one warning at a line (rendered 1-based as
`i + 1`) whose classified top-level name was already recorded at an earlier
line, and never at a first occurrence; the internal `listNameIndex` maps a
name to `i` exactly when line `i` is its first recording line; and every
duplicate diagnostic of the interactive engine spans that line's parsed
name's length from column 0. -/
theorem analyzePerchance_duplicate_rule (lines : List JSStr) (i : Nat) (n : JSStr)
    (h : i < findHtmlStart lines) :
    ((analyzePerchance lines).count ⟨i + 1, BCode.duplicateList n⟩ =
      if topNameAt lines i = some n ∧ ∃ j, j < i ∧ topNameAt lines j = some n
      then 1 else 0) ∧
    (getDef (analyzePerchanceDefs lines) n = some i ↔
      topNameAt lines i = some n ∧ ∀ j, j < i → topNameAt lines j ≠ some n) ∧
    (∀ (cd ci ce : Bool) (d : Diag), d ∈ analyzeDocumentChecks cd ci ce lines →
      d.code = DCode.duplicateListName →
      d.colStart = 0 ∧ ∃ line nm, lines[d.line]? = some line ∧
        parseListName (jsTrim (stripComment (line.drop (indentOf line).length))) =
          some nm ∧
        d.colEnd = max 1 nm.length) := by
  refine ⟨?_, ?_, ?_⟩
  · rw [analyzePerchance]
    simp only [List.count_append]
    rw [show (afterHtmlScan (lines.drop (findHtmlStart lines)) (findHtmlStart lines)).count
        ⟨i + 1, BCode.duplicateList n⟩ = 0 from by
      rw [List.count_eq_zero]
      intro hmem
      have := afterHtmlScan_codes _ _ _ hmem
      simp at this]
    rw [analyzeListLoop_dup_count]
    have hiff : (∃ k, k < (lines.take (findHtmlStart lines)).length ∧
        topNameAt (lines.take (findHtmlStart lines)) k = some n ∧
        i + 1 = 0 + k + 1 ∧
        (hasDef [] n = true ∨ ∃ j, j < k ∧
          topNameAt (lines.take (findHtmlStart lines)) j = some n)) ↔
        (topNameAt lines i = some n ∧ ∃ j, j < i ∧ topNameAt lines j = some n) := by
      constructor
      · rintro ⟨k, hk, h1, h2, h3⟩
        have hki : k = i := by omega
        subst hki
        rw [topNameAt_take h] at h1
        refine ⟨h1, ?_⟩
        rcases h3 with h3 | ⟨j, hj, h3⟩
        · rw [hasDef, getDef] at h3
          simp at h3
        · rw [topNameAt_take (by omega)] at h3
          exact ⟨j, hj, h3⟩
      · rintro ⟨h1, j, hj, h3⟩
        have hlen : i < lines.length := topNameAt_lt_length h1
        refine ⟨i, ?_, by rwa [topNameAt_take h], by omega, ?_⟩
        · rw [List.length_take]
          omega
        · exact Or.inr ⟨j, hj, by rwa [topNameAt_take (by omega)]⟩
    by_cases hc : topNameAt lines i = some n ∧ ∃ j, j < i ∧ topNameAt lines j = some n
    · rw [if_pos (hiff.mpr hc), if_pos hc]
    · rw [if_neg (fun hx => hc (hiff.mp hx)), if_neg hc]
  · rw [analyzePerchanceDefs, analyzeListLoop_defs]
    rw [show getDef [] n = none from rfl]
    simp only
    rw [show (firstTopYield (lines.take (findHtmlStart lines)) n).map (fun x => 0 + x) =
        firstTopYield (lines.take (findHtmlStart lines)) n from by
      cases firstTopYield (lines.take (findHtmlStart lines)) n <;> simp]
    rw [firstTopYield_eq_some_iff]
    constructor
    · rintro ⟨h1, h2⟩
      refine ⟨by rwa [topNameAt_take h] at h1, ?_⟩
      intro j hj
      rw [← topNameAt_take (show j < findHtmlStart lines by omega)]
      exact h2 j hj
    · rintro ⟨h1, h2⟩
      refine ⟨by rwa [topNameAt_take h], ?_⟩
      intro j hj
      rw [topNameAt_take (show j < findHtmlStart lines by omega)]
      exact h2 j hj
  · intro cd ci ce d hd hc
    rw [analyzeDocumentChecks] at hd
    obtain ⟨l', nm, hle, hget, hp, h0, hE⟩ :=
      analyzeDocLoop_dup_shape cd ci ce _ 0 [] none d hd hc
    rw [Nat.sub_zero, List.getElem?_take] at hget
    by_cases hlt : d.line < findHtmlStart lines
    · rw [if_pos hlt] at hget
      exact ⟨h0, l', nm, hget, hp, hE⟩
    · rw [if_neg hlt] at hget
      exact absurd hget (by simp)

/-- Witness for C6 at the document with `foo` on lines 0 and 5 and blank
lines between: exactly one duplicate warning, at source line 5 (rendered 6),
and the map keeps line 0. -/
theorem analyzePerchance_duplicate_rule_witness :
    ((analyzePerchance [str "foo", str "", str "", str "", str "", str "foo"]).count
        ⟨5 + 1, BCode.duplicateList (str "foo")⟩ =
      if topNameAt [str "foo", str "", str "", str "", str "", str "foo"] 5 =
          some (str "foo") ∧
        ∃ j, j < (5 : Nat) ∧
          topNameAt [str "foo", str "", str "", str "", str "", str "foo"] j =
            some (str "foo")
      then 1 else 0) ∧
    (getDef (analyzePerchanceDefs [str "foo", str "", str "", str "", str "", str "foo"])
        (str "foo") = some 0 ↔
      topNameAt [str "foo", str "", str "", str "", str "", str "foo"] 0 =
          some (str "foo") ∧
        ∀ j, j < 0 → topNameAt [str "foo", str "", str "", str "", str "", str "foo"] j ≠
          some (str "foo")) ∧
    (∀ (cd ci ce : Bool) (d : Diag),
      d ∈ analyzeDocumentChecks cd ci ce [str "foo", str "", str "", str "", str "", str "foo"] →
      d.code = DCode.duplicateListName →
      d.colStart = 0 ∧ ∃ line nm,
        [str "foo", str "", str "", str "", str "", str "foo"][d.line]? = some line ∧
        parseListName (jsTrim (stripComment (line.drop (indentOf line).length))) =
          some nm ∧
        d.colEnd = max 1 nm.length) :=
  ⟨(analyzePerchance_duplicate_rule [str "foo", str "", str "", str "", str "", str "foo"]
      5 (str "foo") (by decide)).1,
   (analyzePerchance_duplicate_rule [str "foo", str "", str "", str "", str "", str "foo"]
      0 (str "foo") (by decide)).2.1,
   (analyzePerchance_duplicate_rule [str "foo", str "", str "", str "", str "", str "foo"]
      0 (str "foo") (by decide)).2.2⟩

